import Mathlib

/-!
Verification of the Rubik's cube solver repository.

The repository ships two C++ translation units: the interactive example
driver (`example/solver.cpp`) and the OpenGL viewer (`src/viewer_gl.cpp`).
The solver core (cube algebra, coordinate encoders, pruning tables and the
two search drivers) is reached only through its interface; where a claim
depends on that core, the definitions below are modelled from the
specification and are marked as such in their doc comments.  Everything
taken from the two shipped files is translated directly.
-/

namespace RubikVerify

/-- The six face identifiers, in the index order used by the example driver
(`kFaceStr = {U, D, F, B, L, R}`, cast from indices 0..5). -/
inductive Face : Type
  | U | D | F | B | L | R
  deriving DecidableEq, Repr

instance : Fintype Face :=
  ⟨⟨[Face.U, Face.D, Face.F, Face.B, Face.L, Face.R], by decide⟩, fun f => by cases f <;> decide⟩

/-- Modelled from the spec: the solver core's cube state, the twin
permutation+orientation vectors — 8 corner cubies with position 0-7 and
orientation mod 3, 12 edge cubies with position 0-11 and orientation mod 2.
`corners i` is the (cubie, orientation) pair sitting at position `i`. -/
structure Cube : Type where
  corners : Fin 8 → Fin 8 × ZMod 3
  edges : Fin 12 → Fin 12 × ZMod 2

instance : DecidableEq Cube := fun a b =>
  decidable_of_iff (a.corners = b.corners ∧ a.edges = b.edges)
    (by cases a; cases b; simp)

/-- The solved cube: every cubie at its home position, orientation zero. -/
def solvedCube : Cube :=
  { corners := fun i => (i, 0), edges := fun i => (i, 0) }

/-- Applying a table move to a position-indexed vector: the cubie arriving at
position `i` comes from position `σ i` and its orientation is bumped by
`tw i`.  This is the shape shared by every face turn. -/
def tmApply {n : ℕ} {M : Type} [Add M] (σ : Fin n → Fin n) (tw : Fin n → M)
    (v : Fin n → Fin n × M) : Fin n → Fin n × M :=
  fun i => ((v (σ i)).1, (v (σ i)).2 + tw i)

/-- Modelled from the spec: corner source table of a clockwise quarter turn
(standard Singmaster conventions; corners URF₀ UFL₁ ULB₂ UBR₃ DFR₄ DLF₅
DBL₆ DRB₇). `cSrc f i` is the position whose cubie moves to position `i`. -/
def cSrc : Face → Fin 8 → Fin 8
  | Face.U => ![3, 0, 1, 2, 4, 5, 6, 7]
  | Face.D => ![0, 1, 2, 3, 5, 6, 7, 4]
  | Face.F => ![1, 5, 2, 3, 0, 4, 6, 7]
  | Face.B => ![0, 1, 3, 7, 4, 5, 2, 6]
  | Face.L => ![0, 2, 6, 3, 4, 1, 5, 7]
  | Face.R => ![4, 1, 2, 0, 7, 5, 6, 3]

/-- Modelled from the spec: corner orientation increments of a quarter turn —
U and D leave corner orientation alone, the four side faces add the
{+1, +2, +1, +2} pattern around the turned cycle. -/
def cTw : Face → Fin 8 → ZMod 3
  | Face.U => ![0, 0, 0, 0, 0, 0, 0, 0]
  | Face.D => ![0, 0, 0, 0, 0, 0, 0, 0]
  | Face.F => ![1, 2, 0, 0, 2, 1, 0, 0]
  | Face.B => ![0, 0, 1, 2, 0, 0, 2, 1]
  | Face.L => ![0, 1, 2, 0, 0, 2, 1, 0]
  | Face.R => ![2, 0, 0, 1, 1, 0, 0, 2]

/-- Modelled from the spec: edge source table of a clockwise quarter turn
(edges UR₀ UF₁ UL₂ UB₃ DR₄ DF₅ DL₆ DB₇ FR₈ FL₉ BL₁₀ BR₁₁). -/
def eSrc : Face → Fin 12 → Fin 12
  | Face.U => ![3, 0, 1, 2, 4, 5, 6, 7, 8, 9, 10, 11]
  | Face.D => ![0, 1, 2, 3, 5, 6, 7, 4, 8, 9, 10, 11]
  | Face.F => ![0, 9, 2, 3, 4, 8, 6, 7, 1, 5, 10, 11]
  | Face.B => ![0, 1, 2, 11, 4, 5, 6, 10, 8, 9, 3, 7]
  | Face.L => ![0, 1, 10, 3, 4, 5, 9, 7, 8, 2, 6, 11]
  | Face.R => ![8, 1, 2, 3, 11, 5, 6, 7, 4, 9, 10, 0]

/-- Modelled from the spec: edge orientation increments — F and B flip the
four affected edges, the other faces preserve edge orientation. -/
def eTw : Face → Fin 12 → ZMod 2
  | Face.F => ![0, 1, 0, 0, 0, 1, 0, 0, 1, 1, 0, 0]
  | Face.B => ![0, 0, 0, 1, 0, 0, 0, 1, 0, 0, 1, 1]
  | _ => fun _ => 0

/-- Modelled from the spec: a single clockwise quarter turn of face `f`. -/
def quarter (f : Face) (c : Cube) : Cube :=
  { corners := tmApply (cSrc f) (cTw f) c.corners
    edges := tmApply (eSrc f) (eTw f) c.edges }

/-- Modelled from the spec: `cube_t::rotate(face, turns)` — the turn count is
reduced mod 4 (negative values allowed) and the quarter turn iterated. -/
def rotate (f : Face) (t : ℤ) (c : Cube) : Cube :=
  (quarter f)^[(t % 4).toNat] c

theorem tmApply_tmApply {n : ℕ} {M : Type} [AddSemigroup M]
    (σ σ' : Fin n → Fin n) (tw tw' : Fin n → M) (v : Fin n → Fin n × M) :
    tmApply σ tw (tmApply σ' tw' v) =
      tmApply (fun i => σ' (σ i)) (fun i => tw' (σ i) + tw i) v := by
  funext i
  simp [tmApply, add_assoc]

theorem tmApply_eq_self {n : ℕ} {M : Type} [AddMonoid M]
    (σ : Fin n → Fin n) (tw : Fin n → M) (v : Fin n → Fin n × M)
    (hσ : ∀ i, σ i = i) (htw : ∀ i, tw i = 0) : tmApply σ tw v = v := by
  funext i
  simp [tmApply, hσ, htw]

/-- Four successive quarter turns of the same face restore the state. -/
theorem quarter_four (f : Face) (c : Cube) :
    quarter f (quarter f (quarter f (quarter f c))) = c := by
  cases c with
  | mk co ed =>
    unfold quarter
    simp only [tmApply_tmApply]
    congr 1
    · exact tmApply_eq_self _ _ _
        (by cases f <;> decide) (by cases f <;> decide)
    · exact tmApply_eq_self _ _ _
        (by cases f <;> decide) (by cases f <;> decide)

theorem quarter_iterate_four (f : Face) (c : Cube) :
    (quarter f)^[4] c = c := quarter_four f c

theorem quarter_iterate_mod (f : Face) (k : ℕ) (c : Cube) :
    (quarter f)^[k] c = (quarter f)^[k % 4] c := by
  induction k using Nat.strong_induction_on with
  | _ k ih =>
    rcases Nat.lt_or_ge k 4 with h | h
    · rw [Nat.mod_eq_of_lt h]
    · obtain ⟨m, rfl⟩ : ∃ m, k = m + 4 := ⟨k - 4, by omega⟩
      have h4 : (quarter f)^[m + 4] c = (quarter f)^[m] c := by
        rw [Function.iterate_add_apply]
        exact congrArg _ (quarter_iterate_four f c)
      rw [h4, ih m (by omega)]
      congr 1
      omega

/-- A move: a face together with a clockwise quarter-turn count in {1,2,3};
the `Fin 3` component stores `turns - 1`. -/
abbrev Move : Type := Face × Fin 3

/-- The quarter-turn count of a move, in {1,2,3}. -/
def Move.turns (m : Move) : ℕ := m.2.val + 1

/-- Modelled from the spec: applying one move to a cube state. -/
def applyMove (c : Cube) (m : Move) : Cube :=
  (quarter m.1)^[m.turns] c

/-- Modelled from the spec: applying a solution sequence left to right. -/
def applySeq (c : Cube) (ms : List Move) : Cube :=
  ms.foldl applyMove c

/-- The inverse of a move: same face, complementary turn count (4 - turns). -/
def invMove (m : Move) : Move :=
  (m.1, ⟨2 - m.2.val, by omega⟩)

theorem applyMove_invMove (c : Cube) (m : Move) :
    applyMove (applyMove c m) (invMove m) = c := by
  obtain ⟨f, k⟩ := m
  show (quarter f)^[(2 - k.val) + 1] ((quarter f)^[k.val + 1] c) = c
  rw [← Function.iterate_add_apply]
  have hk : k.val < 3 := k.isLt
  have h4 : (2 - k.val) + 1 + (k.val + 1) = 4 := by omega
  rw [h4]
  exact quarter_iterate_four f c

theorem applySeq_append (c : Cube) (ms ns : List Move) :
    applySeq c (ms ++ ns) = applySeq (applySeq c ms) ns :=
  List.foldl_append ..

/-- The inverse sequence: reversed moves, each inverted. -/
def invSeq (ms : List Move) : List Move :=
  (ms.reverse).map invMove

theorem applySeq_invSeq (c : Cube) (ms : List Move) :
    applySeq (applySeq c ms) (invSeq ms) = c := by
  induction ms generalizing c with
  | nil => rfl
  | cons m ms ih =>
    have h : invSeq (m :: ms) = invSeq ms ++ [invMove m] := by simp [invSeq]
    have h2 : applySeq c (m :: ms) = applySeq (applyMove c m) ms := rfl
    rw [h, h2, applySeq_append, ih (applyMove c m)]
    exact applyMove_invMove c m

/-- Modelled from the spec: the viewer's separate 4×4 cube representation
(`cube4_t`) is outside the shipped sources; it is modelled freely by the
history of the layer rotations applied to it. -/
def Cube4 : Type := List (Face × ℤ × ℤ)

/-- Modelled from the spec: `cube4_t::rotate(face, depth, cnt)` records the
rotation in the free model. -/
def rotate4 (c4 : Cube4) (f : Face) (depth cnt : ℤ) : Cube4 :=
  (f, depth, cnt) :: c4

/-- The state of `viewer_gl` relevant to its behaviour: the pending rotation
queue, the animation bookkeeping, the camera, and the two cube models.
Floating-point scalars are modelled by rationals; the animation clock is an
external input to `update_rotate`. -/
structure ViewerState : Type where
  rotate_que : List (Face × ℤ × ℤ)
  rotate_mask : Fin 3 → ℤ
  rotate_deg : ℚ
  rotate_vec : ℚ
  mgr_active : Bool
  rotate_duration : ℚ
  zoom_factor : ℚ
  yaw_deg : ℚ
  pitch_deg : ℚ
  cube_size : ℕ
  cube : Cube
  cube4 : Cube4

/-- The member initializers of `viewer_gl`: empty queue, masks -1, zoom 1.0,
duration 1.0, a solved 3×3 cube. -/
def initViewer : ViewerState :=
  { rotate_que := []
    rotate_mask := fun _ => -1
    rotate_deg := 0
    rotate_vec := 0
    mgr_active := false
    rotate_duration := 1
    zoom_factor := 1
    yaw_deg := 0
    pitch_deg := 0
    cube_size := 3
    cube := solvedCube
    cube4 := [] }

/-- The member `viewer_gl::add_rotate(f, depth, cnt)`: pushes `(f, depth, cnt % 4)` onto
the queue; C++ `%` on `int` is the truncating remainder `Int.tmod`. -/
def add_rotate3 (st : ViewerState) (f : Face) (depth cnt : ℤ) : ViewerState :=
  { st with rotate_que := st.rotate_que ++ [(f, depth, Int.tmod cnt 4)] }

/-- The member `viewer_gl::add_rotate(f, cnt)`: delegates with depth 1. -/
def add_rotate (st : ViewerState) (f : Face) (cnt : ℤ) : ViewerState :=
  add_rotate3 st f 1 cnt

/-- The member `viewer_gl::adjust_orbit`. -/
def adjust_orbit (st : ViewerState) (dAlpha dBeta : ℚ) : ViewerState :=
  { st with
    pitch_deg := st.pitch_deg + dAlpha
    yaw_deg := st.yaw_deg + dBeta }

/-- The member `viewer_gl::zoom(factor)`: `zoom_factor = std::clamp(zoom_factor*factor,
0.1, 10.0)`, written out as the clamp's conditional. -/
def zoom (st : ViewerState) (factor : ℚ) : ViewerState :=
  { st with zoom_factor :=
      if st.zoom_factor * factor < 1/10 then 1/10
      else if 10 < st.zoom_factor * factor then 10
      else st.zoom_factor * factor }

/-- The member `viewer_gl::update_rotate()`, one frame.  The parameter `r` is the ratio
`elapsed / duration` that `rotate_mgr.get()` computes from the wall clock at
this frame; `get` caps it at 1 and deactivates the manager when `r ≥ 1`. -/
def update_rotate (st : ViewerState) (r : ℚ) : ViewerState :=
  match st.rotate_que with
  | [] => st
  | (ftype, depth, cnt) :: rest =>
    let st1 :=
      if st.mgr_active then st
      else
        let v : ℚ := if cnt < 0 then -1 else 1
        let base : Fin 3 → ℤ := fun _ => -1
        let st' := { st with mgr_active := true }
        match ftype with
        | Face.U => { st' with
            rotate_vec := v
            rotate_mask := Function.update base 0 ((st.cube_size : ℤ) - depth) }
        | Face.D => { st' with
            rotate_vec := -v
            rotate_mask := Function.update base 0 (depth - 1) }
        | Face.L => { st' with
            rotate_vec := -v
            rotate_mask := Function.update base 2 (depth - 1) }
        | Face.R => { st' with
            rotate_vec := v
            rotate_mask := Function.update base 2 ((st.cube_size : ℤ) - depth) }
        | Face.F => { st' with
            rotate_vec := -v
            rotate_mask := Function.update base 1 ((st.cube_size : ℤ) - depth) }
        | Face.B => { st' with
            rotate_vec := v
            rotate_mask := Function.update base 1 (depth - 1) }
    let active2 := st1.mgr_active && decide (r < 1)
    let st2 := { st1 with
      rotate_deg := abs (cnt : ℚ) * 90 * min r 1
      mgr_active := active2 }
    if active2 then st2
    else
      { st2 with
        rotate_mask := fun _ => -1
        cube := if st.cube_size = 3 then rotate ftype cnt st.cube else st.cube
        cube4 := if st.cube_size = 3 then st.cube4
                 else rotate4 st.cube4 ftype depth cnt
        rotate_que := rest }

/-- C5: applying any move and then its inverse move restores the state (for
every cube state, in particular every reachable one). -/
theorem claim_C5_move_then_inverse (s : Cube) (m : Move) :
    applyMove (applyMove s m) (invMove m) = s :=
  applyMove_invMove s m

/-- C6: the rotation operation normalizes the turn count modulo 4: `rotate`
agrees with itself at `t % 4`, for non-negative counts it coincides with the
plain iteration of the quarter turn, the viewer's `add_rotate` stores the
C++-truncated remainder `t % 4`, and that stored count has the same effect
as the original. -/
theorem claim_C6_rotate_mod4 (f : Face) (t : ℤ) (k : ℕ) (s : Cube) :
    rotate f t s = rotate f (t % 4) s ∧
    rotate f (k : ℤ) s = (quarter f)^[k] s ∧
    (∀ st : ViewerState, (add_rotate st f t).rotate_que
        = st.rotate_que ++ [(f, 1, Int.tmod t 4)]) ∧
    rotate f (Int.tmod t 4) s = rotate f t s := by
  refine ⟨?_, ?_, fun st => rfl, ?_⟩
  · unfold rotate
    rw [Int.emod_emod_of_dvd _ (dvd_refl 4)]
  · unfold rotate
    have h : ((k : ℤ) % 4).toNat = k % 4 := by omega
    rw [h]
    exact (quarter_iterate_mod f k s).symm
  · unfold rotate
    have h : Int.tmod t 4 % 4 = t % 4 := by
      rw [Int.tmod_def]
      omega
    rw [h]

theorem zoom_foldl_bounds (fs : List ℚ) (st : ViewerState)
    (h1 : 1/10 ≤ st.zoom_factor) (h2 : st.zoom_factor ≤ 10) :
    1/10 ≤ (fs.foldl zoom st).zoom_factor ∧
      (fs.foldl zoom st).zoom_factor ≤ 10 := by
  induction fs generalizing st with
  | nil => exact ⟨h1, h2⟩
  | cons a fs ih =>
    have hz1 : 1/10 ≤ (zoom st a).zoom_factor := by
      simp only [zoom]
      split_ifs with hv1 hv2
      · norm_num
      · norm_num
      · exact not_lt.mp hv1
    have hz2 : (zoom st a).zoom_factor ≤ 10 := by
      simp only [zoom]
      split_ifs with hv1 hv2
      · norm_num
      · norm_num
      · exact not_lt.mp hv2
    exact ih (zoom st a) hz1 hz2

/-- C10: the viewer's zoom factor starts at 1.0 and stays inside
[0.1, 10.0] after any sequence of zoom calls with positive factors. -/
theorem claim_C10_zoom_invariant (fs : List ℚ) (hpos : ∀ x ∈ fs, 0 < x) :
    initViewer.zoom_factor = 1 ∧
    1/10 ≤ (fs.foldl zoom initViewer).zoom_factor ∧
    (fs.foldl zoom initViewer).zoom_factor ≤ 10 :=
  ⟨rfl, zoom_foldl_bounds fs initViewer (by norm_num [initViewer])
    (by norm_num [initViewer])⟩

theorem claim_C10_zoom_invariant_witness :
    initViewer.zoom_factor = 1 ∧
    1/10 ≤ ([9/10, 11/10].foldl zoom initViewer).zoom_factor ∧
    ([9/10, 11/10].foldl zoom initViewer).zoom_factor ≤ 10 :=
  claim_C10_zoom_invariant [9/10, 11/10] (by
    intro x hx
    simp only [List.mem_cons, List.not_mem_nil, or_false] at hx
    rcases hx with rfl | rfl <;> norm_num)

/-- C9: while a rotation animation is still in progress (clock ratio `r < 1`)
a frame of `update_rotate` changes neither cube model nor the pending queue;
when the animation completes (`r ≥ 1`) the queued move is applied to the
cube model and popped from the queue, exactly once. -/
theorem claim_C9_update_rotate_frame (st : ViewerState) (r : ℚ)
    (f : Face) (depth cnt : ℤ) (rest : List (Face × ℤ × ℤ))
    (hq : st.rotate_que = (f, depth, cnt) :: rest) :
    (r < 1 → (update_rotate st r).cube = st.cube ∧
      (update_rotate st r).cube4 = st.cube4 ∧
      (update_rotate st r).rotate_que = st.rotate_que) ∧
    (1 ≤ r → (update_rotate st r).rotate_que = rest ∧
      (update_rotate st r).cube =
        (if st.cube_size = 3 then rotate f cnt st.cube else st.cube) ∧
      (update_rotate st r).cube4 =
        (if st.cube_size = 3 then st.cube4
         else rotate4 st.cube4 f depth cnt)) := by
  constructor
  · intro hr
    have hd : decide (r < 1) = true := decide_eq_true hr
    cases hA : st.mgr_active <;> cases f <;>
      simp [update_rotate, hq, hA, hd]
  · intro hr
    have hd : decide (r < 1) = false := decide_eq_false (not_lt.mpr hr)
    cases hA : st.mgr_active <;> cases f <;>
      simp [update_rotate, hq, hA, hd]

/-- A concrete viewer state with one pending U rotation. -/
def exViewer : ViewerState :=
  { initViewer with rotate_que := [(Face.U, 1, 1)] }

theorem claim_C9_update_rotate_frame_witness :
    ((1:ℚ)/2 < 1 → (update_rotate exViewer (1/2)).cube = exViewer.cube ∧
      (update_rotate exViewer (1/2)).cube4 = exViewer.cube4 ∧
      (update_rotate exViewer (1/2)).rotate_que = exViewer.rotate_que) ∧
    (1 ≤ (1:ℚ)/2 → (update_rotate exViewer (1/2)).rotate_que = [] ∧
      (update_rotate exViewer (1/2)).cube =
        (if exViewer.cube_size = 3 then rotate Face.U 1 exViewer.cube
         else exViewer.cube) ∧
      (update_rotate exViewer (1/2)).cube4 =
        (if exViewer.cube_size = 3 then exViewer.cube4
         else rotate4 exViewer.cube4 Face.U 1 1)) :=
  claim_C9_update_rotate_frame exViewer (1/2) Face.U 1 1 [] rfl

/-- The numeric value of a decimal digit character, if it is one. -/
def digitVal (c : Char) : Option ℕ :=
  if c.isDigit then some (c.toNat - 48) else none

/-- Accumulate decimal digits left to right; any non-digit fails. -/
def digitsVal : List Char → ℕ → Option ℕ
  | [], acc => some acc
  | c :: cs, acc =>
    match digitVal c with
    | none => none
    | some d => digitsVal cs (acc * 10 + d)

/-- Model of `std::stoi`, simplified to a full-string decimal parse (optional sign
then digits); `none` models the exception path, which `main`'s try/catch
turns into an error exit. -/
def stoiM (s : String) : Option ℤ :=
  match s.toList with
  | [] => none
  | '-' :: cs =>
    if cs = [] then none else (digitsVal cs 0).map (fun n => -(n : ℤ))
  | '+' :: cs =>
    if cs = [] then none else (digitsVal cs 0).map (fun n => (n : ℤ))
  | cs => (digitsVal cs 0).map (fun n => (n : ℤ))

/-- The CLI parse loop of `main` (lines 183-188): argv is consumed pairwise;
every key must be two characters beginning with '-', a key without a value
calls `usage()` (modelled by `none`); `std::map::emplace` keeps the first
binding of a repeated key, so earlier pairs shadow later ones. -/
def parseArgs : List String → Option (List (String × String))
  | [] => some []
  | key :: rest =>
    if key.length = 2 ∧ key.front = '-' then
      match rest with
      | [] => none
      | v :: rest' => (parseArgs rest').map (fun m => (key.drop 1, v) :: m)
    else none

/-- Lookup `arg.contains(k) ? arg.at(k) : default` — first binding of key `k`. -/
def lookupArg (m : List (String × String)) (k : String) : Option String :=
  (m.find? (fun p => p.1 == k)).map (·.2)

/-- The validated configuration produced by `main`. -/
structure Config : Type where
  algo : String
  threads : ℤ
  scramble : ℤ
  deriving DecidableEq

/-- Line 191 of main: thread count from `-t`, default 1. -/
def threadsOf (m : List (String × String)) : Option ℤ :=
  match lookupArg m "t" with
  | none => some 1
  | some v => stoiM v

/-- Line 192 of main: scramble move count from `-s`, default 20. -/
def scrambleOf (m : List (String × String)) : Option ℤ :=
  match lookupArg m "s" with
  | none => some 20
  | some v => stoiM v

/-- Lines 194-196 of main: the three validations in source order; `none`
models the `usage(...)` exit. -/
def checkConfig (algo : String) (threads scramble : ℤ) : Option Config :=
  if ¬(algo = "kociemba" ∨ algo = "krof") then none
  else if threads < 1 ∨ threads > 32 then none
  else if scramble < 0 ∨ scramble > 100 then none
  else some ⟨algo, threads, scramble⟩

/-- Lines 182-196 of main: parse argv, read the three options (with their
defaults), validate. -/
def mainConfig (argv : List String) : Option Config :=
  match parseArgs argv with
  | none => none
  | some m =>
    match threadsOf m, scrambleOf m with
    | some t, some sc => checkConfig ((lookupArg m "a").getD "kociemba") t sc
    | _, _ => none

/-- The algorithm selection of lines 199-213: a solver object is built only
from a validated configuration. -/
inductive SolverKind : Type
  | kociemba | krof
  deriving DecidableEq

/-- Lines 199-213 of main: construct the solver after validation passed. -/
def mainSolver (argv : List String) : Option SolverKind :=
  (mainConfig argv).map fun c =>
    if c.algo = "krof" then SolverKind.krof else SolverKind.kociemba

theorem checkConfig_eq_some (algo : String) (t sc : ℤ) (c : Config) :
    checkConfig algo t sc = some c ↔
      (algo = "kociemba" ∨ algo = "krof") ∧ (1 ≤ t ∧ t ≤ 32) ∧
      (0 ≤ sc ∧ sc ≤ 100) ∧ c = ⟨algo, t, sc⟩ := by
  constructor
  · intro h
    unfold checkConfig at h
    split_ifs at h with h1 h2 h3
    exact ⟨h1, by omega, by omega, (Option.some_inj.mp h).symm⟩
  · rintro ⟨ha, ht, hs, rfl⟩
    unfold checkConfig
    rw [if_neg (not_not.mpr ha), if_neg (by omega), if_neg (by omega)]

theorem mainConfig_some_bounds (argv : List String) (c : Config)
    (h : mainConfig argv = some c) :
    (1 ≤ c.threads ∧ c.threads ≤ 32) ∧ (0 ≤ c.scramble ∧ c.scramble ≤ 100) := by
  unfold mainConfig at h
  cases hp : parseArgs argv with
  | none => rw [hp] at h; exact absurd h (by simp)
  | some m =>
    rw [hp] at h
    have h1 : (match threadsOf m, scrambleOf m with
      | some t, some sc => checkConfig ((lookupArg m "a").getD "kociemba") t sc
      | _, _ => none) = some c := h
    cases ht : threadsOf m with
    | none => rw [ht] at h1; simp at h1
    | some t =>
      cases hs : scrambleOf m with
      | none => rw [ht, hs] at h1; simp at h1
      | some sc =>
        rw [ht, hs] at h1
        have h2 : checkConfig ((lookupArg m "a").getD "kociemba") t sc
            = some c := h1
        obtain ⟨_, hb, hc, rfl⟩ := (checkConfig_eq_some _ _ _ _).mp h2
        exact ⟨hb, hc⟩

/-- C7: a thread count outside [1, 32] is rejected as invalid configuration
(the `usage` exit) before any solver is constructed, and every thread count
in [1, 32] is accepted (given an otherwise valid configuration). -/
theorem claim_C7_thread_count (algo : String) (t sc : ℤ)
    (halgo : algo = "kociemba" ∨ algo = "krof")
    (hsc : 0 ≤ sc ∧ sc ≤ 100) :
    (1 ≤ t ∧ t ≤ 32 → checkConfig algo t sc = some ⟨algo, t, sc⟩) ∧
    (¬(1 ≤ t ∧ t ≤ 32) → checkConfig algo t sc = none) ∧
    (∀ argv, mainConfig argv = none → mainSolver argv = none) ∧
    (∀ argv c, mainConfig argv = some c → 1 ≤ c.threads ∧ c.threads ≤ 32) := by
  refine ⟨?_, ?_, ?_, ?_⟩
  · intro ht
    exact (checkConfig_eq_some _ _ _ _).mpr ⟨halgo, ht, hsc, rfl⟩
  · intro ht
    cases hc : checkConfig algo t sc with
    | none => rfl
    | some c =>
      obtain ⟨_, h2, _, _⟩ := (checkConfig_eq_some _ _ _ _).mp hc
      exact absurd h2 ht
  · intro argv h
    unfold mainSolver
    rw [h]
    rfl
  · intro argv c h
    exact (mainConfig_some_bounds argv c h).1

theorem claim_C7_thread_count_witness :
    ((1 ≤ (4:ℤ) ∧ (4:ℤ) ≤ 32) → checkConfig "krof" 4 20 = some ⟨"krof", 4, 20⟩) ∧
    (¬(1 ≤ (4:ℤ) ∧ (4:ℤ) ≤ 32) → checkConfig "krof" 4 20 = none) ∧
    (∀ argv, mainConfig argv = none → mainSolver argv = none) ∧
    (∀ argv c, mainConfig argv = some c → 1 ≤ c.threads ∧ c.threads ≤ 32) :=
  claim_C7_thread_count "krof" 4 20 (Or.inr rfl) (by omega)

/-- C8: the parser takes the scramble count from the `-s` option (an `-r`
pair is parsed into the map but never consulted), defaults to 20 when `-s`
is absent, and validation accepts exactly the values in [0, 100]. -/
theorem claim_C8_scramble_option (m : List (String × String)) (x v : String)
    (sc : ℤ) :
    (lookupArg m "s" = none → scrambleOf m = some 20) ∧
    (scrambleOf (("r", x) :: m) = scrambleOf m) ∧
    (lookupArg m "s" = some v → stoiM v = some sc → scrambleOf m = some sc) ∧
    (∀ algo t cfg, checkConfig algo t sc = some cfg →
      (0 ≤ sc ∧ sc ≤ 100) ∧ cfg.scramble = sc) ∧
    (0 ≤ sc ∧ sc ≤ 100 → checkConfig "kociemba" 1 sc = some ⟨"kociemba", 1, sc⟩) ∧
    (∀ argv cfg, mainConfig argv = some cfg →
      0 ≤ cfg.scramble ∧ cfg.scramble ≤ 100) := by
  refine ⟨?_, ?_, ?_, ?_, ?_, ?_⟩
  · intro h
    unfold scrambleOf
    rw [h]
  · rfl
  · intro h hs
    unfold scrambleOf
    rw [h]
    exact hs
  · intro algo t cfg h
    obtain ⟨_, _, h3, rfl⟩ := (checkConfig_eq_some _ _ _ _).mp h
    exact ⟨h3, rfl⟩
  · intro h
    exact (checkConfig_eq_some _ _ _ _).mpr ⟨Or.inl rfl, by omega, h, rfl⟩
  · intro argv cfg h
    exact (mainConfig_some_bounds argv cfg h).2

theorem claim_C8_scramble_option_witness :
    scrambleOf [("s", "30")] = some 30 ∧
    scrambleOf [("r", "7"), ("s", "30")] = scrambleOf [("s", "30")] :=
  ⟨(claim_C8_scramble_option [("s", "30")] "7" "30" 30).2.2.1 rfl rfl,
   (claim_C8_scramble_option [("s", "30")] "7" "30" 30).2.1⟩

/-- The 18 face moves of the full move set. -/
def allMoves : List Move :=
  [(Face.U, 0), (Face.U, 1), (Face.U, 2), (Face.D, 0), (Face.D, 1), (Face.D, 2),
   (Face.F, 0), (Face.F, 1), (Face.F, 2), (Face.B, 0), (Face.B, 1), (Face.B, 2),
   (Face.L, 0), (Face.L, 1), (Face.L, 2), (Face.R, 0), (Face.R, 1), (Face.R, 2)]

theorem mem_allMoves : ∀ m : Move, m ∈ allMoves := by decide

/-- Modelled from the spec: the search core shared by both solvers — a
complete depth-bounded enumeration of move sequences that stops at the
solved state.  (The shipped binaries guide the same complete search by
pruning tables; the tables only reorder and cut work, they do not change
which sequences solve.) -/
def dfsSolve (c : Cube) : ℕ → Option (List Move)
  | 0 => if c = solvedCube then some [] else none
  | n + 1 =>
    if c = solvedCube then some []
    else allMoves.findSome? fun m => (dfsSolve (applyMove c m) n).map (m :: ·)

/-- Modelled from the spec: `solve` with an iterative-deepening budget. -/
def solve (fuel : ℕ) (c : Cube) : Option (List Move) :=
  dfsSolve c fuel

theorem dfsSolve_sound : ∀ (n : ℕ) (c : Cube) (ms : List Move),
    dfsSolve c n = some ms → applySeq c ms = solvedCube := by
  intro n
  induction n with
  | zero =>
    intro c ms h
    unfold dfsSolve at h
    by_cases hc : c = solvedCube
    · rw [if_pos hc] at h
      cases h
      exact hc
    · rw [if_neg hc] at h
      cases h
  | succ n ih =>
    intro c ms h
    unfold dfsSolve at h
    by_cases hc : c = solvedCube
    · rw [if_pos hc] at h
      cases h
      exact hc
    · rw [if_neg hc] at h
      obtain ⟨m, hmem, hm⟩ := List.exists_of_findSome?_eq_some h
      cases hd : dfsSolve (applyMove c m) n with
      | none => rw [hd] at hm; cases hm
      | some ms' =>
        rw [hd] at hm
        cases hm
        show applySeq (applyMove c m) ms' = solvedCube
        exact ih (applyMove c m) ms' hd

theorem dfsSolve_complete : ∀ (n : ℕ) (c : Cube) (ms : List Move),
    ms.length ≤ n → applySeq c ms = solvedCube → (dfsSolve c n).isSome := by
  intro n
  induction n with
  | zero =>
    intro c ms hlen hsol
    have : ms = [] := List.length_eq_zero.mp (Nat.le_zero.mp hlen)
    subst this
    have hc : c = solvedCube := hsol
    unfold dfsSolve
    rw [if_pos hc]
    rfl
  | succ n ih =>
    intro c ms hlen hsol
    unfold dfsSolve
    by_cases hc : c = solvedCube
    · rw [if_pos hc]
      rfl
    · rw [if_neg hc]
      cases ms with
      | nil => exact absurd hsol hc
      | cons m rest =>
        have hrest : applySeq (applyMove c m) rest = solvedCube := hsol
        have hlen' : rest.length ≤ n := by
          simp only [List.length_cons] at hlen
          omega
        have hsome := ih (applyMove c m) rest hlen' hrest
        apply List.findSome?_isSome_iff.mpr
        refine ⟨m, mem_allMoves m, ?_⟩
        cases hd : dfsSolve (applyMove c m) n with
        | none => rw [hd] at hsome; cases hsome
        | some ms' => simp

/-- Reachability from the solved cube within `n` moves. -/
def ReachableIn (n : ℕ) (c : Cube) : Prop :=
  ∃ ms : List Move, ms.length ≤ n ∧ applySeq solvedCube ms = c

/-- C1: for every reachable cube state, the sequence returned by `solve`
(run with a budget covering the state's scramble length, as both solvers'
iterative deepening does) brings the cube back to the solved state. -/
theorem claim_C1_solve_solves (c : Cube) (n : ℕ) (h : ReachableIn n c) :
    ∃ ms, solve n c = some ms ∧ applySeq c ms = solvedCube := by
  obtain ⟨ws, hlen, hws⟩ := h
  have hsolves : applySeq c (invSeq ws) = solvedCube := by
    rw [← hws]
    exact applySeq_invSeq _ _
  have hlen2 : (invSeq ws).length ≤ n := by
    unfold invSeq
    rw [List.length_map, List.length_reverse]
    exact hlen
  have hs := dfsSolve_complete n c (invSeq ws) hlen2 hsolves
  obtain ⟨ms, hms⟩ := Option.isSome_iff_exists.mp hs
  exact ⟨ms, hms, dfsSolve_sound n c ms hms⟩

theorem claim_C1_solve_solves_witness :
    ∃ ms, solve 1 (quarter Face.U solvedCube) = some ms ∧
      applySeq (quarter Face.U solvedCube) ms = solvedCube :=
  claim_C1_solve_solves (quarter Face.U solvedCube) 1
    ⟨[(Face.U, ⟨0, by omega⟩)], by decide, rfl⟩

/-- Modelled from the spec: the error taxonomy of the solver interface. -/
inductive SolveError : Type
  | MalformedCube | TableLoadError | TableSaveError | InvalidConfig | Unsolvable
  deriving DecidableEq

/-- Modelled from the spec: the cube value as the `solve` entrance receives
it — four index vectors whose entries may be out of range. -/
structure RawCube : Type where
  cp : Fin 8 → ℕ
  co : Fin 8 → ℕ
  ep : Fin 12 → ℕ
  eo : Fin 12 → ℕ

/-- Inversion count of an index vector, as the nested counting loops a
checker runs. -/
def inversions {n : ℕ} (p : Fin n → ℕ) : ℕ :=
  ((List.finRange n).map fun i =>
    ((List.finRange n).filter fun j => decide (i < j ∧ p j < p i)).length).sum

/-- Modelled from the spec: the entrance validation — all cubie indices in
range, orientation sums ≡ 0 (mod 3 / mod 2), and equal permutation
parities, computed by loops over the raw vectors. -/
def validOk (r : RawCube) : Bool :=
  ((List.finRange 8).all fun i => decide (r.cp i < 8)) &&
  ((List.finRange 8).all fun i => decide (r.co i < 3)) &&
  ((List.finRange 12).all fun i => decide (r.ep i < 12)) &&
  ((List.finRange 12).all fun i => decide (r.eo i < 2)) &&
  (((List.finRange 8).map r.co).sum % 3 == 0) &&
  (((List.finRange 12).map r.eo).sum % 2 == 0) &&
  (inversions r.cp % 2 == inversions r.ep % 2)

/-- The typed cube built from validated raw data (indices reduced into
range; on validated input the reductions are the identity). -/
def toCube (r : RawCube) : Cube :=
  { corners := fun i => (⟨r.cp i % 8, Nat.mod_lt _ (by omega)⟩, (r.co i : ZMod 3))
    edges := fun i => (⟨r.ep i % 12, Nat.mod_lt _ (by omega)⟩, (r.eo i : ZMod 2)) }

/-- Modelled from the spec: the `solve` entry — the malformed-cube check
runs first; only when it passes does the search run, and a failed search
reports the reserved `Unsolvable`, never `MalformedCube`. -/
def solveRaw (fuel : ℕ) (r : RawCube) : Except SolveError (List Move) :=
  if validOk r = false then Except.error SolveError.MalformedCube
  else
    match solve fuel (toCube r) with
    | some ms => Except.ok ms
    | none => Except.error SolveError.Unsolvable

theorem length_filter_eq_sum_map {α : Type} (l : List α) (p : α → Bool) :
    (l.filter p).length = (l.map fun i => if p i then 1 else 0).sum := by
  induction l with
  | nil => rfl
  | cons a l ih => by_cases h : p a <;> simp [List.filter_cons, h, ih, Nat.add_comm]

theorem length_filter_eq_card {n : ℕ} (P : Fin n → Prop) [DecidablePred P] :
    ((List.finRange n).filter fun i => decide (P i)).length =
      (Finset.univ.filter P).card := by
  rw [Finset.card_filter, Fin.sum_univ_def, length_filter_eq_sum_map]
  congr 1
  apply List.map_congr_left
  intro i _
  by_cases h : P i <;> simp [h]

theorem inversions_eq_card {n : ℕ} (p : Fin n → ℕ) :
    inversions p = ∑ i : Fin n, (Finset.univ.filter fun j => i < j ∧ p j < p i).card := by
  unfold inversions
  rw [Fin.sum_univ_def]
  exact congrArg List.sum
    (List.map_congr_left fun i _ => length_filter_eq_card _)

set_option maxHeartbeats 1000000 in
theorem validOk_iff (r : RawCube) :
    validOk r = true ↔
      ((∀ i, r.cp i < 8) ∧ (∀ i, r.co i < 3) ∧
       (∀ i, r.ep i < 12) ∧ (∀ i, r.eo i < 2) ∧
       (∑ i, r.co i) % 3 = 0 ∧ (∑ i, r.eo i) % 2 = 0 ∧
       (∑ i : Fin 8, (Finset.univ.filter fun j => i < j ∧ r.cp j < r.cp i).card) % 2 =
       (∑ i : Fin 12, (Finset.univ.filter fun j => i < j ∧ r.ep j < r.ep i).card) % 2) := by
  unfold validOk
  rw [← inversions_eq_card r.cp, ← inversions_eq_card r.ep,
    Fin.sum_univ_def r.co, Fin.sum_univ_def r.eo]
  simp only [Bool.and_eq_true, List.all_eq_true, decide_eq_true_eq, beq_iff_eq,
    List.mem_finRange, forall_const]
  tauto

/-- C2: the `solve` entrance raises `MalformedCube` exactly for the inputs
whose cubie indices are out of range or whose parity invariants fail
(corner orientation sum mod 3, edge orientation sum mod 2, equal
permutation parities); the check runs at entry, and a cube that passes it
can never produce `MalformedCube`. -/
theorem claim_C2_malformed_iff (r : RawCube) (fuel : ℕ) :
    solveRaw fuel r = Except.error SolveError.MalformedCube ↔
      ¬((∀ i, r.cp i < 8) ∧ (∀ i, r.co i < 3) ∧
        (∀ i, r.ep i < 12) ∧ (∀ i, r.eo i < 2) ∧
        (∑ i, r.co i) % 3 = 0 ∧ (∑ i, r.eo i) % 2 = 0 ∧
        (∑ i : Fin 8, (Finset.univ.filter fun j => i < j ∧ r.cp j < r.cp i).card) % 2 =
        (∑ i : Fin 12, (Finset.univ.filter fun j => i < j ∧ r.ep j < r.ep i).card) % 2) := by
  unfold solveRaw
  rw [← validOk_iff]
  by_cases hv : validOk r = false
  · rw [if_pos hv, hv]
    simp
  · rw [if_neg hv]
    have hv' : validOk r = true := by
      revert hv
      cases validOk r <;> simp
    rw [hv']
    cases hs : solve fuel (toCube r) with
    | some ms => simp
    | none => simp

section PruneTable

variable {N : ℕ}

/-- Modelled from the spec: one flooding pass at depth `d` of the
pruning-table builder — every entry still 0xF that is the move-successor of
an entry currently equal to `d` receives `d + 1`; all others keep their
value. -/
def floodStep (mv : List (Fin N → Fin N)) (T : Fin N → ℕ) (d : ℕ) :
    Fin N → ℕ :=
  fun c =>
    if T c = 15 ∧ ∃ p : Fin N, T p = d ∧ ∃ g ∈ mv, g p = c then d + 1 else T c

/-- Modelled from the spec: the initial nibble array — 0 at the goal
coordinate, 0xF everywhere else. -/
def floodInit (goal : Fin N) : Fin N → ℕ :=
  fun c => if c = goal then 0 else 15

/-- The first `d` flooding passes. -/
def floodUpTo (mv : List (Fin N → Fin N)) (goal : Fin N) : ℕ → Fin N → ℕ
  | 0 => floodInit goal
  | d + 1 => floodStep mv (floodUpTo mv goal d) d

/-- Modelled from the spec: the finished pruning table — flooding runs until
depth 14 and deeper entries remain 0xF, encoding "depth ≥ 15".  (Stopping
instead at the first pass with no update gives the same table, since the
passes are monotone.) -/
def pruneTable (mv : List (Fin N → Fin N)) (goal : Fin N) : Fin N → ℕ :=
  floodUpTo mv goal 14

/-- Reachability `reachInB mv goal d c`: the flooding direction — `c` is reachable from
the goal in at most `d` moves of the move table. -/
def reachInB (mv : List (Fin N → Fin N)) (goal : Fin N) : ℕ → Fin N → Bool
  | 0, c => decide (c = goal)
  | d + 1, c => reachInB mv goal d c ||
      decide (∃ p : Fin N, reachInB mv goal d p = true ∧ ∃ g ∈ mv, g p = c)

/-- Solvability `pathToB mv goal n c`: the solving direction — `c` can be brought to the
goal in at most `n` moves; this is the true distance the spec's pruning
entries bound. -/
def pathToB (mv : List (Fin N → Fin N)) (goal : Fin N) : ℕ → Fin N → Bool
  | 0, c => decide (c = goal)
  | n + 1, c => pathToB mv goal n c ||
      decide (∃ g ∈ mv, pathToB mv goal n (g c) = true)

theorem reachInB_succ_of (mv : List (Fin N → Fin N)) (goal : Fin N)
    (d : ℕ) (c : Fin N) (h : reachInB mv goal d c = true) :
    reachInB mv goal (d + 1) c = true := by
  unfold reachInB
  rw [h]
  rfl

theorem reachInB_le_mono (mv : List (Fin N → Fin N)) (goal : Fin N)
    {d e : ℕ} (hde : d ≤ e) (c : Fin N)
    (h : reachInB mv goal d c = true) : reachInB mv goal e c = true := by
  induction e with
  | zero =>
    have hd0 : d = 0 := by omega
    subst hd0
    exact h
  | succ e ih =>
    rcases Nat.lt_or_ge d (e + 1) with hlt | hge
    · exact reachInB_succ_of mv goal e c (ih (by omega))
    · have : d = e + 1 := by omega
      subst this
      exact h

theorem pathToB_succ_of (mv : List (Fin N → Fin N)) (goal : Fin N)
    (n : ℕ) (c : Fin N) (h : pathToB mv goal n c = true) :
    pathToB mv goal (n + 1) c = true := by
  unfold pathToB
  rw [h]
  rfl

theorem pathToB_of_reachInB (mv : List (Fin N → Fin N)) (goal : Fin N)
    (hinv : ∀ g ∈ mv, ∃ g' ∈ mv, ∀ x, g' (g x) = x) :
    ∀ (n : ℕ) (c : Fin N),
      reachInB mv goal n c = true → pathToB mv goal n c = true := by
  intro n
  induction n with
  | zero => exact fun c h => h
  | succ n ih =>
    intro c h
    simp only [reachInB, Bool.or_eq_true, decide_eq_true_eq] at h
    rcases h with h | ⟨p, hp, g, hg, hgp⟩
    · exact pathToB_succ_of mv goal n c (ih c h)
    · obtain ⟨g', hg', hgg'⟩ := hinv g hg
      simp only [pathToB, Bool.or_eq_true, decide_eq_true_eq]
      refine Or.inr ⟨g', hg', ?_⟩
      rw [← hgp, hgg']
      exact ih p hp

theorem reachInB_of_pathToB (mv : List (Fin N → Fin N)) (goal : Fin N)
    (hinv : ∀ g ∈ mv, ∃ g' ∈ mv, ∀ x, g' (g x) = x) :
    ∀ (n : ℕ) (c : Fin N),
      pathToB mv goal n c = true → reachInB mv goal n c = true := by
  intro n
  induction n with
  | zero => exact fun c h => h
  | succ n ih =>
    intro c h
    simp only [pathToB, Bool.or_eq_true, decide_eq_true_eq] at h
    rcases h with h | ⟨g, hg, hpath⟩
    · exact reachInB_succ_of mv goal n c (ih c h)
    · obtain ⟨g', hg', hgg'⟩ := hinv g hg
      simp only [reachInB, Bool.or_eq_true, decide_eq_true_eq]
      exact Or.inr ⟨g c, ih (g c) hpath, g', hg', hgg' c⟩

theorem flood_invariant (mv : List (Fin N → Fin N)) (goal : Fin N) :
    ∀ d, d ≤ 14 →
      (∀ c, (floodUpTo mv goal d c = 15 ∧ reachInB mv goal d c = false) ∨
        (floodUpTo mv goal d c ≤ d ∧
         reachInB mv goal (floodUpTo mv goal d c) c = true ∧
         ∀ k < floodUpTo mv goal d c, reachInB mv goal k c = false)) ∧
      (∀ p g, g ∈ mv → floodUpTo mv goal d p < d →
        floodUpTo mv goal d (g p) ≤ floodUpTo mv goal d p + 1) := by
  intro d
  induction d with
  | zero =>
    intro _
    constructor
    · intro c
      by_cases hc : c = goal
      · right
        refine ⟨?_, ?_, ?_⟩
        · simp [floodUpTo, floodInit, hc]
        · simp [floodUpTo, floodInit, reachInB, hc]
        · intro k hk
          simp [floodUpTo, floodInit, hc] at hk
      · left
        constructor
        · simp [floodUpTo, floodInit, hc]
        · simp [reachInB, hc]
    · intro p g _ hlt
      exact absurd hlt (Nat.not_lt_zero _)
  | succ d ih =>
    intro hd14
    obtain ⟨inv1, inv2⟩ := ih (by omega)
    have hT' : ∀ c, floodUpTo mv goal (d + 1) c = floodStep mv (floodUpTo mv goal d) d c :=
      fun c => rfl
    constructor
    · intro c
      by_cases hcond : floodUpTo mv goal d c = 15 ∧
          ∃ p : Fin N, floodUpTo mv goal d p = d ∧ ∃ g ∈ mv, g p = c
      · -- this pass writes d+1 at c
        have hval : floodUpTo mv goal (d + 1) c = d + 1 := by
          rw [hT']
          exact if_pos hcond
        obtain ⟨hTc, p, hTp, g, hg, hgp⟩ := hcond
        have hreachp : reachInB mv goal d p = true := by
          rcases inv1 p with ⟨h15, _⟩ | ⟨_, hre, _⟩
          · rw [hTp] at h15
            omega
          · rw [hTp] at hre
            exact hre
        have hreachdc : reachInB mv goal d c = false := by
          rcases inv1 c with ⟨_, hfa⟩ | ⟨hle, _, _⟩
          · exact hfa
          · rw [hTc] at hle
            omega
        right
        refine ⟨by omega, ?_, ?_⟩
        · rw [hval]
          simp only [reachInB, Bool.or_eq_true, decide_eq_true_eq]
          exact Or.inr ⟨p, hreachp, g, hg, hgp⟩
        · intro k hk
          rw [hval] at hk
          cases hbk : reachInB mv goal k c with
          | false => rfl
          | true =>
            have := reachInB_le_mono mv goal (show k ≤ d by omega) c hbk
            rw [hreachdc] at this
            cases this
      · -- entry kept
        have hval : floodUpTo mv goal (d + 1) c = floodUpTo mv goal d c := by
          rw [hT']
          exact if_neg hcond
        rcases inv1 c with ⟨h15, hfa⟩ | ⟨hle, hre, hmin⟩
        · left
          refine ⟨by rw [hval]; exact h15, ?_⟩
          cases hb : reachInB mv goal (d + 1) c with
          | false => rfl
          | true =>
            exfalso
            simp only [reachInB, Bool.or_eq_true, decide_eq_true_eq] at hb
            rcases hb with hb | ⟨p, hp, g, hg, hgp⟩
            · rw [hfa] at hb
              cases hb
            · rcases inv1 p with ⟨_, hpf⟩ | ⟨hple, _, _⟩
              · rw [hpf] at hp
                cases hp
              · rcases Nat.lt_or_ge (floodUpTo mv goal d p) d with hplt | hpge
                · have := inv2 p g hg hplt
                  rw [hgp] at this
                  omega
                · have hpd : floodUpTo mv goal d p = d := by omega
                  exact hcond ⟨h15, p, hpd, g, hg, hgp⟩
        · right
          rw [hval]
          exact ⟨by omega, hre, hmin⟩
    · intro p g hg hlt
      have hlt' : floodStep mv (floodUpTo mv goal d) d p < d + 1 := hlt
      by_cases hcondp : floodUpTo mv goal d p = 15 ∧
          ∃ q : Fin N, floodUpTo mv goal d q = d ∧ ∃ h ∈ mv, h q = p
      · have hvp : floodStep mv (floodUpTo mv goal d) d p = d + 1 := if_pos hcondp
        rw [hvp] at hlt'
        omega
      · have hvp0 : floodStep mv (floodUpTo mv goal d) d p = floodUpTo mv goal d p :=
          if_neg hcondp
        have hvp : floodUpTo mv goal (d + 1) p = floodUpTo mv goal d p := by
          rw [hT' p]
          exact hvp0
        rw [hvp0] at hlt'
        rw [hvp]
        have hple : floodUpTo mv goal d p ≤ d := by omega
        rcases Nat.lt_or_ge (floodUpTo mv goal d p) d with hplt | hpge
        · have hsucc := inv2 p g hg hplt
          have hkeep : floodUpTo mv goal (d + 1) (g p) = floodUpTo mv goal d (g p) := by
            rw [hT']
            apply if_neg
            intro hc
            rw [hc.1] at hsucc
            omega
          rw [hkeep]
          exact hsucc
        · have hpd : floodUpTo mv goal d p = d := by omega
          by_cases hc15 : floodUpTo mv goal d (g p) = 15
          · have hw : floodUpTo mv goal (d + 1) (g p) = d + 1 := by
              rw [hT']
              exact if_pos ⟨hc15, p, hpd, g, hg, rfl⟩
            rw [hw, hpd]
          · have hkeep : floodUpTo mv goal (d + 1) (g p) = floodUpTo mv goal d (g p) := by
              rw [hT']
              apply if_neg
              intro hc
              exact hc15 hc.1
            rw [hkeep]
            rcases inv1 (g p) with ⟨h15, _⟩ | ⟨hle, _, _⟩
            · exact absurd h15 hc15
            · omega

end PruneTable

/-- C3: pruning entries are admissible lower bounds — an entry below 15 is
at most the true shortest move count from the coordinate to the goal, and
an entry equal to 0xF means the true distance is at least 15 (no solve of
length ≤ 14 exists), not a cap on search depth.  Stated for any move-table
set closed under inverses, as all the solver's move sets are. -/
theorem claim_C3_prune_admissible {N : ℕ} (mv : List (Fin N → Fin N))
    (goal c : Fin N)
    (hinv : ∀ g ∈ mv, ∃ g' ∈ mv, ∀ x, g' (g x) = x) :
    (pruneTable mv goal c < 15 →
      ∀ n, pathToB mv goal n c = true → pruneTable mv goal c ≤ n) ∧
    (pruneTable mv goal c = 15 →
      ∀ n ≤ 14, pathToB mv goal n c = false) := by
  obtain ⟨inv1, _⟩ := flood_invariant mv goal 14 (by omega)
  constructor
  · intro hlt n hn
    rcases inv1 c with ⟨h15, _⟩ | ⟨hle, _, hmin⟩
    · rw [show pruneTable mv goal c = floodUpTo mv goal 14 c from rfl] at hlt
      omega
    · by_contra hgt
      have hnc : reachInB mv goal n c = true :=
        reachInB_of_pathToB mv goal hinv n c hn
      have := hmin n (by
        rw [show pruneTable mv goal c = floodUpTo mv goal 14 c from rfl] at hgt
        omega)
      rw [hnc] at this
      cases this
  · intro h15 n hn
    rcases inv1 c with ⟨_, hfa⟩ | ⟨hle, _, _⟩
    · cases hb : pathToB mv goal n c with
      | false => rfl
      | true =>
        have hr := reachInB_of_pathToB mv goal hinv n c hb
        have := reachInB_le_mono mv goal hn c hr
        rw [hfa] at this
        cases this
    · rw [show pruneTable mv goal c = floodUpTo mv goal 14 c from rfl] at h15
      omega

/-- The cyclic 6-element coordinate space used as a concrete instance: one
step forward and one step back. -/
def mv6 : List (Fin 6 → Fin 6) := [![1, 2, 3, 4, 5, 0], ![5, 0, 1, 2, 3, 4]]

theorem mv6_closed_under_inverse : ∀ g ∈ mv6, ∃ g' ∈ mv6, ∀ x, g' (g x) = x := by
  intro g hg
  simp only [mv6, List.mem_cons, List.not_mem_nil, or_false] at hg
  rcases hg with rfl | rfl
  · exact ⟨![5, 0, 1, 2, 3, 4], List.mem_cons_of_mem _ (List.mem_cons_self _ _),
      by decide⟩
  · exact ⟨![1, 2, 3, 4, 5, 0], List.mem_cons_self _ _, by decide⟩

theorem claim_C3_prune_admissible_witness :
    (pruneTable mv6 0 2 < 15 →
      ∀ n, pathToB mv6 0 n 2 = true → pruneTable mv6 0 2 ≤ n) ∧
    (pruneTable mv6 0 2 = 15 →
      ∀ n ≤ 14, pathToB mv6 0 n 2 = false) :=
  claim_C3_prune_admissible mv6 0 2 mv6_closed_under_inverse

theorem sum_univ_twelve {M : Type} [AddCommMonoid M] (f : Fin 12 → M) :
    ∑ i, f i = f 0 + f 1 + f 2 + f 3 + f 4 + f 5 + f 6 + f 7 + f 8 + f 9
      + f 10 + f 11 := by
  rw [Fin.sum_univ_castSucc, Fin.sum_univ_castSucc, Fin.sum_univ_castSucc,
    Fin.sum_univ_castSucc, Fin.sum_univ_eight]
  rfl

/-- Modelled from the spec: corner-orientation coordinate — the first 7
corner orientations read as a base-3 number (the eighth is determined by
the orientation-sum invariant). -/
def encCO (v : Fin 8 → ZMod 3) : ℕ :=
  ∑ i : Fin 8, if (i : ℕ) < 7 then (v i).val * 3 ^ (i : ℕ) else 0

/-- Modelled from the spec: inverse of the corner-orientation coordinate —
base-3 digits for the first 7 corners, the eighth restoring sum ≡ 0 mod 3. -/
def decCO (c : ℕ) : Fin 8 → ZMod 3 :=
  fun i =>
    if (i : ℕ) < 7 then ((c / 3 ^ (i : ℕ) % 3 : ℕ) : ZMod 3)
    else -(∑ j : Fin 8, if (j : ℕ) < 7 then ((c / 3 ^ (j : ℕ) % 3 : ℕ) : ZMod 3) else 0)

/-- Modelled from the spec: edge-orientation coordinate — the first 11 edge
orientations read as a base-2 number. -/
def encEO (v : Fin 12 → ZMod 2) : ℕ :=
  ∑ i : Fin 12, if (i : ℕ) < 11 then (v i).val * 2 ^ (i : ℕ) else 0

/-- Modelled from the spec: inverse of the edge-orientation coordinate. -/
def decEO (c : ℕ) : Fin 12 → ZMod 2 :=
  fun i =>
    if (i : ℕ) < 11 then ((c / 2 ^ (i : ℕ) % 2 : ℕ) : ZMod 2)
    else -(∑ j : Fin 12, if (j : ℕ) < 11 then ((c / 2 ^ (j : ℕ) % 2 : ℕ) : ZMod 2) else 0)

theorem encCO_expand (v : Fin 8 → ZMod 3) :
    encCO v = (v 0).val + (v 1).val * 3 + (v 2).val * 9 + (v 3).val * 27 +
      (v 4).val * 81 + (v 5).val * 243 + (v 6).val * 729 := by
  unfold encCO
  rw [Fin.sum_univ_eight]
  norm_num [Fin.coe_ofNat_eq_mod]

theorem decCO_encCO (v : Fin 8 → ZMod 3) (hsum : ∑ i, v i = 0) :
    decCO (encCO v) = v := by
  have h0 : (v 0).val < 3 := ZMod.val_lt _
  have h1 : (v 1).val < 3 := ZMod.val_lt _
  have h2 : (v 2).val < 3 := ZMod.val_lt _
  have h3 : (v 3).val < 3 := ZMod.val_lt _
  have h4 : (v 4).val < 3 := ZMod.val_lt _
  have h5 : (v 5).val < 3 := ZMod.val_lt _
  have h6 : (v 6).val < 3 := ZMod.val_lt _
  have hexp := encCO_expand v
  have hc0 : ((encCO v / 1 % 3 : ℕ) : ZMod 3) = v 0 := by
    rw [show encCO v / 1 % 3 = (v 0).val by rw [hexp]; omega]
    exact ZMod.natCast_rightInverse _
  have hc1 : ((encCO v / 3 % 3 : ℕ) : ZMod 3) = v 1 := by
    rw [show encCO v / 3 % 3 = (v 1).val by rw [hexp]; omega]
    exact ZMod.natCast_rightInverse _
  have hc2 : ((encCO v / 9 % 3 : ℕ) : ZMod 3) = v 2 := by
    rw [show encCO v / 9 % 3 = (v 2).val by rw [hexp]; omega]
    exact ZMod.natCast_rightInverse _
  have hc3 : ((encCO v / 27 % 3 : ℕ) : ZMod 3) = v 3 := by
    rw [show encCO v / 27 % 3 = (v 3).val by rw [hexp]; omega]
    exact ZMod.natCast_rightInverse _
  have hc4 : ((encCO v / 81 % 3 : ℕ) : ZMod 3) = v 4 := by
    rw [show encCO v / 81 % 3 = (v 4).val by rw [hexp]; omega]
    exact ZMod.natCast_rightInverse _
  have hc5 : ((encCO v / 243 % 3 : ℕ) : ZMod 3) = v 5 := by
    rw [show encCO v / 243 % 3 = (v 5).val by rw [hexp]; omega]
    exact ZMod.natCast_rightInverse _
  have hc6 : ((encCO v / 729 % 3 : ℕ) : ZMod 3) = v 6 := by
    rw [show encCO v / 729 % 3 = (v 6).val by rw [hexp]; omega]
    exact ZMod.natCast_rightInverse _
  have e0 : (if ((0 : Fin 8) : ℕ) < 7 then
      ((encCO v / 3 ^ ((0 : Fin 8) : ℕ) % 3 : ℕ) : ZMod 3) else 0) = v 0 := by
    rw [if_pos (by decide)]
    exact hc0
  have e1 : (if ((1 : Fin 8) : ℕ) < 7 then
      ((encCO v / 3 ^ ((1 : Fin 8) : ℕ) % 3 : ℕ) : ZMod 3) else 0) = v 1 := by
    rw [if_pos (by decide)]
    exact hc1
  have e2 : (if ((2 : Fin 8) : ℕ) < 7 then
      ((encCO v / 3 ^ ((2 : Fin 8) : ℕ) % 3 : ℕ) : ZMod 3) else 0) = v 2 := by
    rw [if_pos (by decide)]
    exact hc2
  have e3 : (if ((3 : Fin 8) : ℕ) < 7 then
      ((encCO v / 3 ^ ((3 : Fin 8) : ℕ) % 3 : ℕ) : ZMod 3) else 0) = v 3 := by
    rw [if_pos (by decide)]
    exact hc3
  have e4 : (if ((4 : Fin 8) : ℕ) < 7 then
      ((encCO v / 3 ^ ((4 : Fin 8) : ℕ) % 3 : ℕ) : ZMod 3) else 0) = v 4 := by
    rw [if_pos (by decide)]
    exact hc4
  have e5 : (if ((5 : Fin 8) : ℕ) < 7 then
      ((encCO v / 3 ^ ((5 : Fin 8) : ℕ) % 3 : ℕ) : ZMod 3) else 0) = v 5 := by
    rw [if_pos (by decide)]
    exact hc5
  have e6 : (if ((6 : Fin 8) : ℕ) < 7 then
      ((encCO v / 3 ^ ((6 : Fin 8) : ℕ) % 3 : ℕ) : ZMod 3) else 0) = v 6 := by
    rw [if_pos (by decide)]
    exact hc6
  have e7 : (if ((7 : Fin 8) : ℕ) < 7 then
      ((encCO v / 3 ^ ((7 : Fin 8) : ℕ) % 3 : ℕ) : ZMod 3) else 0) = 0 :=
    if_neg (by decide)
  funext i
  fin_cases i
  · exact hc0
  · exact hc1
  · exact hc2
  · exact hc3
  · exact hc4
  · exact hc5
  · exact hc6
  · show -(∑ j : Fin 8, if (j : ℕ) < 7 then
        ((encCO v / 3 ^ (j : ℕ) % 3 : ℕ) : ZMod 3) else 0) = v 7
    rw [Fin.sum_univ_eight, e0, e1, e2, e3, e4, e5, e6, e7, add_zero]
    rw [Fin.sum_univ_eight] at hsum
    linear_combination -hsum

theorem encCO_decCO (c : ℕ) (hc : c < 2187) : encCO (decCO c) = c := by
  have hv0 : (decCO c 0).val = c / 1 % 3 := by
    show (((c / 3 ^ ((0 : Fin 8) : ℕ) % 3 : ℕ)) : ZMod 3).val = c / 1 % 3
    exact ZMod.val_cast_of_lt (by omega)
  have hv1 : (decCO c 1).val = c / 3 % 3 := by
    show (((c / 3 ^ ((1 : Fin 8) : ℕ) % 3 : ℕ)) : ZMod 3).val = c / 3 % 3
    exact ZMod.val_cast_of_lt (by omega)
  have hv2 : (decCO c 2).val = c / 9 % 3 := by
    show (((c / 3 ^ ((2 : Fin 8) : ℕ) % 3 : ℕ)) : ZMod 3).val = c / 9 % 3
    exact ZMod.val_cast_of_lt (by omega)
  have hv3 : (decCO c 3).val = c / 27 % 3 := by
    show (((c / 3 ^ ((3 : Fin 8) : ℕ) % 3 : ℕ)) : ZMod 3).val = c / 27 % 3
    exact ZMod.val_cast_of_lt (by omega)
  have hv4 : (decCO c 4).val = c / 81 % 3 := by
    show (((c / 3 ^ ((4 : Fin 8) : ℕ) % 3 : ℕ)) : ZMod 3).val = c / 81 % 3
    exact ZMod.val_cast_of_lt (by omega)
  have hv5 : (decCO c 5).val = c / 243 % 3 := by
    show (((c / 3 ^ ((5 : Fin 8) : ℕ) % 3 : ℕ)) : ZMod 3).val = c / 243 % 3
    exact ZMod.val_cast_of_lt (by omega)
  have hv6 : (decCO c 6).val = c / 729 % 3 := by
    show (((c / 3 ^ ((6 : Fin 8) : ℕ) % 3 : ℕ)) : ZMod 3).val = c / 729 % 3
    exact ZMod.val_cast_of_lt (by omega)
  rw [encCO_expand, hv0, hv1, hv2, hv3, hv4, hv5, hv6]
  omega

theorem encEO_expand (v : Fin 12 → ZMod 2) :
    encEO v = (v 0).val + (v 1).val * 2 + (v 2).val * 4 + (v 3).val * 8 +
      (v 4).val * 16 + (v 5).val * 32 + (v 6).val * 64 + (v 7).val * 128 +
      (v 8).val * 256 + (v 9).val * 512 + (v 10).val * 1024 := by
  unfold encEO
  rw [sum_univ_twelve]
  norm_num [Fin.coe_ofNat_eq_mod]

theorem decEO_encEO (v : Fin 12 → ZMod 2) (hsum : ∑ i, v i = 0) :
    decEO (encEO v) = v := by
  have h0 : (v 0).val < 2 := ZMod.val_lt _
  have h1 : (v 1).val < 2 := ZMod.val_lt _
  have h2 : (v 2).val < 2 := ZMod.val_lt _
  have h3 : (v 3).val < 2 := ZMod.val_lt _
  have h4 : (v 4).val < 2 := ZMod.val_lt _
  have h5 : (v 5).val < 2 := ZMod.val_lt _
  have h6 : (v 6).val < 2 := ZMod.val_lt _
  have h7 : (v 7).val < 2 := ZMod.val_lt _
  have h8 : (v 8).val < 2 := ZMod.val_lt _
  have h9 : (v 9).val < 2 := ZMod.val_lt _
  have h10 : (v 10).val < 2 := ZMod.val_lt _
  have hexp := encEO_expand v
  have hc0 : ((encEO v / 1 % 2 : ℕ) : ZMod 2) = v 0 := by
    rw [show encEO v / 1 % 2 = (v 0).val by rw [hexp]; omega]
    exact ZMod.natCast_rightInverse _
  have hc1 : ((encEO v / 2 % 2 : ℕ) : ZMod 2) = v 1 := by
    rw [show encEO v / 2 % 2 = (v 1).val by rw [hexp]; omega]
    exact ZMod.natCast_rightInverse _
  have hc2 : ((encEO v / 4 % 2 : ℕ) : ZMod 2) = v 2 := by
    rw [show encEO v / 4 % 2 = (v 2).val by rw [hexp]; omega]
    exact ZMod.natCast_rightInverse _
  have hc3 : ((encEO v / 8 % 2 : ℕ) : ZMod 2) = v 3 := by
    rw [show encEO v / 8 % 2 = (v 3).val by rw [hexp]; omega]
    exact ZMod.natCast_rightInverse _
  have hc4 : ((encEO v / 16 % 2 : ℕ) : ZMod 2) = v 4 := by
    rw [show encEO v / 16 % 2 = (v 4).val by rw [hexp]; omega]
    exact ZMod.natCast_rightInverse _
  have hc5 : ((encEO v / 32 % 2 : ℕ) : ZMod 2) = v 5 := by
    rw [show encEO v / 32 % 2 = (v 5).val by rw [hexp]; omega]
    exact ZMod.natCast_rightInverse _
  have hc6 : ((encEO v / 64 % 2 : ℕ) : ZMod 2) = v 6 := by
    rw [show encEO v / 64 % 2 = (v 6).val by rw [hexp]; omega]
    exact ZMod.natCast_rightInverse _
  have hc7 : ((encEO v / 128 % 2 : ℕ) : ZMod 2) = v 7 := by
    rw [show encEO v / 128 % 2 = (v 7).val by rw [hexp]; omega]
    exact ZMod.natCast_rightInverse _
  have hc8 : ((encEO v / 256 % 2 : ℕ) : ZMod 2) = v 8 := by
    rw [show encEO v / 256 % 2 = (v 8).val by rw [hexp]; omega]
    exact ZMod.natCast_rightInverse _
  have hc9 : ((encEO v / 512 % 2 : ℕ) : ZMod 2) = v 9 := by
    rw [show encEO v / 512 % 2 = (v 9).val by rw [hexp]; omega]
    exact ZMod.natCast_rightInverse _
  have hc10 : ((encEO v / 1024 % 2 : ℕ) : ZMod 2) = v 10 := by
    rw [show encEO v / 1024 % 2 = (v 10).val by rw [hexp]; omega]
    exact ZMod.natCast_rightInverse _
  have e0 : (if ((0 : Fin 12) : ℕ) < 11 then
      ((encEO v / 2 ^ ((0 : Fin 12) : ℕ) % 2 : ℕ) : ZMod 2) else 0) = v 0 := by
    rw [if_pos (by decide)]
    exact hc0
  have e1 : (if ((1 : Fin 12) : ℕ) < 11 then
      ((encEO v / 2 ^ ((1 : Fin 12) : ℕ) % 2 : ℕ) : ZMod 2) else 0) = v 1 := by
    rw [if_pos (by decide)]
    exact hc1
  have e2 : (if ((2 : Fin 12) : ℕ) < 11 then
      ((encEO v / 2 ^ ((2 : Fin 12) : ℕ) % 2 : ℕ) : ZMod 2) else 0) = v 2 := by
    rw [if_pos (by decide)]
    exact hc2
  have e3 : (if ((3 : Fin 12) : ℕ) < 11 then
      ((encEO v / 2 ^ ((3 : Fin 12) : ℕ) % 2 : ℕ) : ZMod 2) else 0) = v 3 := by
    rw [if_pos (by decide)]
    exact hc3
  have e4 : (if ((4 : Fin 12) : ℕ) < 11 then
      ((encEO v / 2 ^ ((4 : Fin 12) : ℕ) % 2 : ℕ) : ZMod 2) else 0) = v 4 := by
    rw [if_pos (by decide)]
    exact hc4
  have e5 : (if ((5 : Fin 12) : ℕ) < 11 then
      ((encEO v / 2 ^ ((5 : Fin 12) : ℕ) % 2 : ℕ) : ZMod 2) else 0) = v 5 := by
    rw [if_pos (by decide)]
    exact hc5
  have e6 : (if ((6 : Fin 12) : ℕ) < 11 then
      ((encEO v / 2 ^ ((6 : Fin 12) : ℕ) % 2 : ℕ) : ZMod 2) else 0) = v 6 := by
    rw [if_pos (by decide)]
    exact hc6
  have e7 : (if ((7 : Fin 12) : ℕ) < 11 then
      ((encEO v / 2 ^ ((7 : Fin 12) : ℕ) % 2 : ℕ) : ZMod 2) else 0) = v 7 := by
    rw [if_pos (by decide)]
    exact hc7
  have e8 : (if ((8 : Fin 12) : ℕ) < 11 then
      ((encEO v / 2 ^ ((8 : Fin 12) : ℕ) % 2 : ℕ) : ZMod 2) else 0) = v 8 := by
    rw [if_pos (by decide)]
    exact hc8
  have e9 : (if ((9 : Fin 12) : ℕ) < 11 then
      ((encEO v / 2 ^ ((9 : Fin 12) : ℕ) % 2 : ℕ) : ZMod 2) else 0) = v 9 := by
    rw [if_pos (by decide)]
    exact hc9
  have e10 : (if ((10 : Fin 12) : ℕ) < 11 then
      ((encEO v / 2 ^ ((10 : Fin 12) : ℕ) % 2 : ℕ) : ZMod 2) else 0) = v 10 := by
    rw [if_pos (by decide)]
    exact hc10
  have e11 : (if ((11 : Fin 12) : ℕ) < 11 then
      ((encEO v / 2 ^ ((11 : Fin 12) : ℕ) % 2 : ℕ) : ZMod 2) else 0) = 0 :=
    if_neg (by decide)
  funext i
  fin_cases i
  · exact hc0
  · exact hc1
  · exact hc2
  · exact hc3
  · exact hc4
  · exact hc5
  · exact hc6
  · exact hc7
  · exact hc8
  · exact hc9
  · exact hc10
  · show -(∑ j : Fin 12, if (j : ℕ) < 11 then
        ((encEO v / 2 ^ (j : ℕ) % 2 : ℕ) : ZMod 2) else 0) = v 11
    rw [sum_univ_twelve, e0, e1, e2, e3, e4, e5, e6, e7, e8, e9, e10, e11,
      add_zero]
    rw [sum_univ_twelve] at hsum
    linear_combination -hsum

theorem encEO_decEO (c : ℕ) (hc : c < 2048) : encEO (decEO c) = c := by
  have hv0 : (decEO c 0).val = c / 1 % 2 := by
    show (((c / 2 ^ ((0 : Fin 12) : ℕ) % 2 : ℕ)) : ZMod 2).val = c / 1 % 2
    exact ZMod.val_cast_of_lt (by omega)
  have hv1 : (decEO c 1).val = c / 2 % 2 := by
    show (((c / 2 ^ ((1 : Fin 12) : ℕ) % 2 : ℕ)) : ZMod 2).val = c / 2 % 2
    exact ZMod.val_cast_of_lt (by omega)
  have hv2 : (decEO c 2).val = c / 4 % 2 := by
    show (((c / 2 ^ ((2 : Fin 12) : ℕ) % 2 : ℕ)) : ZMod 2).val = c / 4 % 2
    exact ZMod.val_cast_of_lt (by omega)
  have hv3 : (decEO c 3).val = c / 8 % 2 := by
    show (((c / 2 ^ ((3 : Fin 12) : ℕ) % 2 : ℕ)) : ZMod 2).val = c / 8 % 2
    exact ZMod.val_cast_of_lt (by omega)
  have hv4 : (decEO c 4).val = c / 16 % 2 := by
    show (((c / 2 ^ ((4 : Fin 12) : ℕ) % 2 : ℕ)) : ZMod 2).val = c / 16 % 2
    exact ZMod.val_cast_of_lt (by omega)
  have hv5 : (decEO c 5).val = c / 32 % 2 := by
    show (((c / 2 ^ ((5 : Fin 12) : ℕ) % 2 : ℕ)) : ZMod 2).val = c / 32 % 2
    exact ZMod.val_cast_of_lt (by omega)
  have hv6 : (decEO c 6).val = c / 64 % 2 := by
    show (((c / 2 ^ ((6 : Fin 12) : ℕ) % 2 : ℕ)) : ZMod 2).val = c / 64 % 2
    exact ZMod.val_cast_of_lt (by omega)
  have hv7 : (decEO c 7).val = c / 128 % 2 := by
    show (((c / 2 ^ ((7 : Fin 12) : ℕ) % 2 : ℕ)) : ZMod 2).val = c / 128 % 2
    exact ZMod.val_cast_of_lt (by omega)
  have hv8 : (decEO c 8).val = c / 256 % 2 := by
    show (((c / 2 ^ ((8 : Fin 12) : ℕ) % 2 : ℕ)) : ZMod 2).val = c / 256 % 2
    exact ZMod.val_cast_of_lt (by omega)
  have hv9 : (decEO c 9).val = c / 512 % 2 := by
    show (((c / 2 ^ ((9 : Fin 12) : ℕ) % 2 : ℕ)) : ZMod 2).val = c / 512 % 2
    exact ZMod.val_cast_of_lt (by omega)
  have hv10 : (decEO c 10).val = c / 1024 % 2 := by
    show (((c / 2 ^ ((10 : Fin 12) : ℕ) % 2 : ℕ)) : ZMod 2).val = c / 1024 % 2
    exact ZMod.val_cast_of_lt (by omega)
  rw [encEO_expand, hv0, hv1, hv2, hv3, hv4, hv5, hv6, hv7, hv8, hv9, hv10]
  omega

/-- Modelled from the spec: Lehmer-code rank of a permutation, given as the
per-position list of cubie indices — each step counts the smaller indices
to its right and weights by the factorial of the remaining length. -/
def lehmerRank : List ℕ → ℕ
  | [] => 0
  | x :: xs =>
    (xs.filter fun y => decide (y < x)).length * Nat.factorial xs.length + lehmerRank xs

/-- Modelled from the spec: inverse of the Lehmer rank — factorial-base
digits select successive entries of the ascending list of unused indices. -/
def lehmerUnrankAux : ℕ → ℕ → List ℕ → List ℕ
  | 0, _, _ => []
  | n + 1, c, avail =>
    avail.getD (c / Nat.factorial n) 0 ::
      lehmerUnrankAux n (c % Nat.factorial n) (avail.eraseIdx (c / Nat.factorial n))

/-- Modelled from the spec: unrank against a given ascending index list. -/
def lehmerUnrank (c : ℕ) (avail : List ℕ) : List ℕ :=
  lehmerUnrankAux avail.length c avail

theorem lehmerRank_lt : ∀ p : List ℕ, lehmerRank p < Nat.factorial p.length
  | [] => Nat.one_pos
  | x :: xs => by
    have hk : (xs.filter fun y => decide (y < x)).length ≤ xs.length :=
      List.length_filter_le _ _
    have hr := lehmerRank_lt xs
    show (xs.filter fun y => decide (y < x)).length * Nat.factorial xs.length +
        lehmerRank xs < Nat.factorial (xs.length + 1)
    rw [Nat.factorial_succ]
    calc (xs.filter fun y => decide (y < x)).length * Nat.factorial xs.length +
          lehmerRank xs
        < ((xs.filter fun y => decide (y < x)).length + 1) * Nat.factorial xs.length := by
          rw [Nat.add_mul, Nat.one_mul]
          omega
      _ ≤ (xs.length + 1) * Nat.factorial xs.length :=
          Nat.mul_le_mul_right _ (by omega)

theorem sorted_getD_countLT :
    ∀ (avail : List ℕ) (x : ℕ), avail.Pairwise (· < ·) → x ∈ avail →
      avail.getD ((avail.filter fun y => decide (y < x)).length) 0 = x := by
  intro avail
  induction avail with
  | nil => intro x _ hx; cases hx
  | cons a rest ih =>
    intro x hp hx
    have ha : ∀ y ∈ rest, a < y := (List.pairwise_cons.mp hp).1
    have hrest : rest.Pairwise (· < ·) := (List.pairwise_cons.mp hp).2
    rcases List.mem_cons.mp hx with rfl | hxr
    · have hfa : rest.filter (fun y => decide (y < x)) = [] := by
        apply List.filter_eq_nil_iff.mpr
        intro y hy
        have := ha y hy
        simp only [decide_eq_true_eq]
        omega
      have hfx : (x :: rest).filter (fun y => decide (y < x)) = [] := by
        rw [List.filter_cons, decide_eq_false (lt_irrefl x)]
        exact hfa
      rw [hfx]
      rfl
    · have hax : a < x := ha x hxr
      have hfx : (a :: rest).filter (fun y => decide (y < x)) =
          a :: rest.filter (fun y => decide (y < x)) := by
        rw [List.filter_cons, decide_eq_true hax, if_pos rfl]
      rw [hfx]
      show rest.getD ((rest.filter fun y => decide (y < x)).length) 0 = x
      exact ih x hrest hxr

theorem perm_get_cons_eraseIdx :
    ∀ (l : List ℕ) (k : ℕ) (h : k < l.length),
      l.Perm (l.get ⟨k, h⟩ :: l.eraseIdx k) := by
  intro l
  induction l with
  | nil => intro k h; cases h
  | cons a rest ih =>
    intro k h
    cases k with
    | zero => exact List.Perm.refl _
    | succ k =>
      have hk : k < rest.length := by
        simp only [List.length_cons] at h
        omega
      show (a :: rest).Perm (rest.get ⟨k, hk⟩ :: (a :: rest.eraseIdx k))
      exact ((ih k hk).cons a).trans (List.Perm.swap _ _ _)

theorem count_lt_eraseIdx_sorted :
    ∀ (l : List ℕ) (k : ℕ) (h : k < l.length), l.Pairwise (· < ·) →
      ((l.eraseIdx k).filter fun y => decide (y < l.get ⟨k, h⟩)).length = k := by
  intro l
  induction l with
  | nil => intro k h; cases h
  | cons a rest ih =>
    intro k h hp
    have ha : ∀ y ∈ rest, a < y := (List.pairwise_cons.mp hp).1
    have hrest : rest.Pairwise (· < ·) := (List.pairwise_cons.mp hp).2
    cases k with
    | zero =>
      show (rest.filter fun y => decide (y < a)).length = 0
      rw [List.length_eq_zero]
      apply List.filter_eq_nil_iff.mpr
      intro y hy
      have := ha y hy
      simp only [decide_eq_true_eq]
      omega
    | succ k =>
      have hk : k < rest.length := by
        simp only [List.length_cons] at h
        omega
      have hx : rest.get ⟨k, hk⟩ ∈ rest := List.get_mem _ _ _
      have hax : a < rest.get ⟨k, hk⟩ := ha _ hx
      show ((a :: rest.eraseIdx k).filter fun y =>
          decide (y < rest.get ⟨k, hk⟩)).length = k + 1
      rw [List.filter_cons, decide_eq_true hax, if_pos rfl]
      show ((rest.eraseIdx k).filter fun y =>
          decide (y < rest.get ⟨k, hk⟩)).length + 1 = k + 1
      rw [ih k hk hrest]

theorem lehmerUnrank_lehmerRank :
    ∀ (p avail : List ℕ), p.Perm avail → avail.Pairwise (· < ·) →
      lehmerUnrankAux avail.length (lehmerRank p) avail = p := by
  intro p
  induction p with
  | nil =>
    intro avail hperm _
    have : avail = [] := hperm.symm.eq_nil
    subst this
    rfl
  | cons x xs ih =>
    intro avail hperm hsorted
    have hlen : avail.length = xs.length + 1 := by
      rw [← hperm.length_eq]
      rfl
    have hrlt : lehmerRank xs < Nat.factorial xs.length := lehmerRank_lt xs
    have hfpos : 0 < Nat.factorial xs.length := Nat.factorial_pos _
    have hrankdef : lehmerRank (x :: xs) =
        (xs.filter fun y => decide (y < x)).length * Nat.factorial xs.length +
          lehmerRank xs := rfl
    have hdiv : lehmerRank (x :: xs) / Nat.factorial xs.length =
        (xs.filter fun y => decide (y < x)).length := by
      rw [hrankdef, Nat.mul_comm, Nat.mul_add_div hfpos,
        Nat.div_eq_of_lt hrlt, Nat.add_zero]
    have hmod : lehmerRank (x :: xs) % Nat.factorial xs.length =
        lehmerRank xs := by
      rw [hrankdef, Nat.mul_comm, Nat.mul_add_mod, Nat.mod_eq_of_lt hrlt]
    have hkavail : (avail.filter fun y => decide (y < x)).length =
        (xs.filter fun y => decide (y < x)).length := by
      have h1 := (hperm.filter (fun y => decide (y < x))).length_eq
      rw [← h1, List.filter_cons, decide_eq_false (lt_irrefl x),
        if_neg Bool.false_ne_true]
    have hx_mem : x ∈ avail := hperm.mem_iff.mp (List.mem_cons_self _ _)
    have hget : avail.getD ((xs.filter fun y => decide (y < x)).length) 0 = x := by
      rw [← hkavail]
      exact sorted_getD_countLT avail x hsorted hx_mem
    have hkk_lt : (xs.filter fun y => decide (y < x)).length < avail.length := by
      have : (xs.filter fun y => decide (y < x)).length ≤ xs.length :=
        List.length_filter_le _ _
      omega
    have hgetget : avail.get ⟨(xs.filter fun y => decide (y < x)).length, hkk_lt⟩
        = x := by
      rw [← List.getD_eq_get avail 0 hkk_lt]
      exact hget
    have hperm' :
        (avail.eraseIdx ((xs.filter fun y => decide (y < x)).length)).Perm xs := by
      have h1 := perm_get_cons_eraseIdx avail _ hkk_lt
      rw [hgetget] at h1
      exact ((hperm.trans h1).cons_inv).symm
    have hsorted' := List.Pairwise.eraseIdx
      ((xs.filter fun y => decide (y < x)).length) hsorted
    have hlen' :
        (avail.eraseIdx ((xs.filter fun y => decide (y < x)).length)).length =
          xs.length := by
      rw [List.length_eraseIdx_of_lt hkk_lt, hlen]
      omega
    rw [hlen]
    show avail.getD (lehmerRank (x :: xs) / Nat.factorial xs.length) 0 ::
        lehmerUnrankAux xs.length (lehmerRank (x :: xs) % Nat.factorial xs.length)
          (avail.eraseIdx (lehmerRank (x :: xs) / Nat.factorial xs.length)) =
        x :: xs
    rw [hdiv, hmod, hget]
    have := ih (avail.eraseIdx ((xs.filter fun y => decide (y < x)).length))
      hperm'.symm hsorted'
    rw [hlen'] at this
    rw [this]

theorem lehmerRank_lehmerUnrank :
    ∀ (n : ℕ) (avail : List ℕ) (c : ℕ), avail.length = n →
      avail.Pairwise (· < ·) → c < Nat.factorial n →
      lehmerRank (lehmerUnrankAux n c avail) = c ∧
        (lehmerUnrankAux n c avail).Perm avail := by
  intro n
  induction n with
  | zero =>
    intro avail c hlen _ hc
    have hc0 : c = 0 := by
      have : Nat.factorial 0 = 1 := rfl
      omega
    have hav : avail = [] := List.length_eq_zero.mp hlen
    subst hc0
    subst hav
    exact ⟨rfl, List.Perm.refl _⟩
  | succ n ih =>
    intro avail c hlen hsorted hc
    have hfpos : 0 < Nat.factorial n := Nat.factorial_pos _
    have hkn : c / Nat.factorial n ≤ n := by
      have hmul : c < (n + 1) * Nat.factorial n := by
        rw [← Nat.factorial_succ]
        exact hc
      have := (Nat.div_lt_iff_lt_mul hfpos).mpr hmul
      omega
    have hklen : c / Nat.factorial n < avail.length := by omega
    have hmodlt : c % Nat.factorial n < Nat.factorial n := Nat.mod_lt _ hfpos
    have herlen : (avail.eraseIdx (c / Nat.factorial n)).length = n := by
      rw [List.length_eraseIdx_of_lt hklen, hlen]
      omega
    have hsorted' := List.Pairwise.eraseIdx (c / Nat.factorial n) hsorted
    obtain ⟨ihrank, ihperm⟩ :=
      ih (avail.eraseIdx (c / Nat.factorial n)) (c % Nat.factorial n)
        herlen hsorted' hmodlt
    have hget : avail.getD (c / Nat.factorial n) 0 =
        avail.get ⟨c / Nat.factorial n, hklen⟩ :=
      List.getD_eq_get avail 0 hklen
    have htlen :
        (lehmerUnrankAux n (c % Nat.factorial n)
          (avail.eraseIdx (c / Nat.factorial n))).length = n := by
      rw [ihperm.length_eq, herlen]
    have hcount :
        ((lehmerUnrankAux n (c % Nat.factorial n)
            (avail.eraseIdx (c / Nat.factorial n))).filter fun y =>
          decide (y < avail.get ⟨c / Nat.factorial n, hklen⟩)).length =
          c / Nat.factorial n := by
      have h1 := (ihperm.filter (fun y =>
        decide (y < avail.get ⟨c / Nat.factorial n, hklen⟩))).length_eq
      rw [h1]
      exact count_lt_eraseIdx_sorted avail (c / Nat.factorial n) hklen hsorted
    constructor
    · show lehmerRank (avail.getD (c / Nat.factorial n) 0 ::
          lehmerUnrankAux n (c % Nat.factorial n)
            (avail.eraseIdx (c / Nat.factorial n))) = c
      rw [hget]
      show ((lehmerUnrankAux n (c % Nat.factorial n)
            (avail.eraseIdx (c / Nat.factorial n))).filter fun y =>
          decide (y < avail.get ⟨c / Nat.factorial n, hklen⟩)).length *
          Nat.factorial (lehmerUnrankAux n (c % Nat.factorial n)
            (avail.eraseIdx (c / Nat.factorial n))).length +
          lehmerRank (lehmerUnrankAux n (c % Nat.factorial n)
            (avail.eraseIdx (c / Nat.factorial n))) = c
      rw [hcount, htlen, ihrank]
      exact Nat.div_add_mod' c (Nat.factorial n)
    · show (avail.getD (c / Nat.factorial n) 0 ::
          lehmerUnrankAux n (c % Nat.factorial n)
            (avail.eraseIdx (c / Nat.factorial n))).Perm avail
      rw [hget]
      have h1 := perm_get_cons_eraseIdx avail (c / Nat.factorial n) hklen
      exact (ihperm.cons _).trans h1.symm

/-- Modelled from the spec: combinatorial rank of the UD-slice placement —
the positions holding the four slice edges, listed in strictly decreasing
order, ranked in the combinatorial number system. -/
def combRankD : ℕ → List ℕ → ℕ
  | _, [] => 0
  | k, p :: rest => Nat.choose p k + combRankD (k - 1) rest

/-- Modelled from the spec: inverse of the combinatorial rank — greedy scan
from the highest position downward. -/
def combUnrankD : ℕ → ℕ → ℕ → List ℕ
  | 0, _, _ => []
  | _ + 1, 0, _ => []
  | n + 1, k + 1, c =>
    if Nat.choose n (k + 1) ≤ c then
      n :: combUnrankD n k (c - Nat.choose n (k + 1))
    else combUnrankD n (k + 1) c

theorem combUnrankD_succ (n k c : ℕ) :
    combUnrankD (n + 1) (k + 1) c =
      if Nat.choose n (k + 1) ≤ c then
        n :: combUnrankD n k (c - Nat.choose n (k + 1))
      else combUnrankD n (k + 1) c := rfl

theorem combRankD_lt :
    ∀ (l : List ℕ) (m : ℕ), l.Pairwise (· > ·) → (∀ x ∈ l, x < m) →
      combRankD l.length l < Nat.choose m l.length := by
  intro l
  induction l with
  | nil =>
    intro m _ _
    show 0 < Nat.choose m 0
    rw [Nat.choose_zero_right]
    omega
  | cons p rest ih =>
    intro m hp hb
    have hrest := (List.pairwise_cons.mp hp).2
    have hrb : ∀ x ∈ rest, x < p := (List.pairwise_cons.mp hp).1
    have hpm : p < m := hb p (List.mem_cons_self _ _)
    have ihr := ih p hrest hrb
    show Nat.choose p (rest.length + 1) + combRankD (rest.length + 1 - 1) rest
      < Nat.choose m (rest.length + 1)
    simp only [Nat.add_sub_cancel]
    have hstep : Nat.choose p (rest.length + 1) + combRankD rest.length rest <
        Nat.choose (p + 1) (rest.length + 1) := by
      rw [Nat.choose_succ_succ]
      simp only [Nat.succ_eq_add_one]
      omega
    have hmono : Nat.choose (p + 1) (rest.length + 1) ≤
        Nat.choose m (rest.length + 1) :=
      Nat.choose_le_choose _ (by omega)
    omega

theorem combUnrankD_combRankD :
    ∀ (n : ℕ) (l : List ℕ), l.Pairwise (· > ·) → (∀ x ∈ l, x < n) →
      combUnrankD n l.length (combRankD l.length l) = l := by
  intro n
  induction n with
  | zero =>
    intro l _ hb
    cases l with
    | nil => rfl
    | cons p rest => exact absurd (hb p (List.mem_cons_self _ _)) (by omega)
  | succ n ih =>
    intro l hp hb
    cases l with
    | nil => rfl
    | cons p rest =>
      have hrest := (List.pairwise_cons.mp hp).2
      have hrb : ∀ x ∈ rest, x < p := (List.pairwise_cons.mp hp).1
      have hpn : p < n + 1 := hb p (List.mem_cons_self _ _)
      have hbound := combRankD_lt rest p hrest hrb
      have hcr : combRankD (rest.length + 1) (p :: rest) =
          Nat.choose p (rest.length + 1) + combRankD rest.length rest := by
        show Nat.choose p (rest.length + 1) +
          combRankD (rest.length + 1 - 1) rest = _
        simp only [Nat.add_sub_cancel]
      show combUnrankD (n + 1) (rest.length + 1)
        (combRankD (rest.length + 1) (p :: rest)) = p :: rest
      rw [hcr, combUnrankD_succ]
      by_cases hpe : p = n
      · subst hpe
        rw [if_pos (Nat.le_add_right _ _)]
        congr 1
        rw [Nat.add_sub_cancel_left]
        have := ih rest hrest (by intro x hx; exact hrb x hx)
        exact this
      · have hplt : p < n := by omega
        have hcia : Nat.choose p (rest.length + 1) + combRankD rest.length rest <
            Nat.choose n (rest.length + 1) := by
          have h1 : Nat.choose p (rest.length + 1) + combRankD rest.length rest <
              Nat.choose (p + 1) (rest.length + 1) := by
            rw [Nat.choose_succ_succ]
            simp only [Nat.succ_eq_add_one]
            omega
          have h2 : Nat.choose (p + 1) (rest.length + 1) ≤
              Nat.choose n (rest.length + 1) :=
            Nat.choose_le_choose _ (by omega)
          omega
        rw [if_neg (by omega)]
        have hb' : ∀ x ∈ p :: rest, x < n := by
          intro x hx
          rcases List.mem_cons.mp hx with rfl | hx'
          · exact hplt
          · have := hrb x hx'
            omega
        have := ih (p :: rest) hp hb'
        rw [List.length_cons, hcr] at this
        exact this

theorem combRankD_combUnrankD :
    ∀ (n k c : ℕ), c < Nat.choose n k →
      combRankD k (combUnrankD n k c) = c ∧
      (combUnrankD n k c).length = k ∧
      (combUnrankD n k c).Pairwise (· > ·) ∧
      (∀ x ∈ combUnrankD n k c, x < n) := by
  intro n
  induction n with
  | zero =>
    intro k c hc
    cases k with
    | zero =>
      have hc0 : c = 0 := by
        rw [Nat.choose_self] at hc
        omega
      subst hc0
      exact ⟨rfl, rfl, List.Pairwise.nil, fun x hx => by cases hx⟩
    | succ k =>
      rw [Nat.choose_eq_zero_of_lt (by omega)] at hc
      omega
  | succ n ih =>
    intro k c hc
    cases k with
    | zero =>
      have hc0 : c = 0 := by
        rw [Nat.choose_zero_right] at hc
        omega
      subst hc0
      exact ⟨rfl, rfl, List.Pairwise.nil, fun x hx => by cases hx⟩
    | succ k =>
      rw [combUnrankD_succ]
      by_cases hle : Nat.choose n (k + 1) ≤ c
      · rw [if_pos hle]
        have hpascal : Nat.choose (n + 1) (k + 1) =
            Nat.choose n k + Nat.choose n (k + 1) := Nat.choose_succ_succ _ _
        have hsub : c - Nat.choose n (k + 1) < Nat.choose n k := by omega
        obtain ⟨ihr, ihlen, ihpw, ihb⟩ := ih k (c - Nat.choose n (k + 1)) hsub
        refine ⟨?_, ?_, ?_, ?_⟩
        · show Nat.choose n (k + 1) +
            combRankD (k + 1 - 1) (combUnrankD n k (c - Nat.choose n (k + 1))) = c
          simp only [Nat.add_sub_cancel]
          rw [ihr]
          omega
        · rw [List.length_cons, ihlen]
        · rw [List.pairwise_cons]
          exact ⟨fun y hy => ihb y hy, ihpw⟩
        · intro x hx
          rcases List.mem_cons.mp hx with rfl | hx'
          · omega
          · have := ihb x hx'
            omega
      · rw [if_neg hle]
        have hc' : c < Nat.choose n (k + 1) := by omega
        obtain ⟨ihr, ihlen, ihpw, ihb⟩ := ih (k + 1) c hc'
        refine ⟨ihr, ihlen, ihpw, fun x hx => ?_⟩
        have := ihb x hx
        omega

/-- Cube states reachable from the solved cube by some move sequence. -/
def Reachable (c : Cube) : Prop := ∃ ms : List Move, applySeq solvedCube ms = c

/-- The structural invariants every reachable state enjoys: zero orientation
sums and position maps that are permutations. -/
def GoodCube (c : Cube) : Prop :=
  (∑ i, (c.corners i).2) = 0 ∧ (∑ i, (c.edges i).2) = 0 ∧
  Function.Bijective (fun i => (c.corners i).1) ∧
  Function.Bijective (fun i => (c.edges i).1)

theorem goodCube_solved : GoodCube solvedCube := by
  refine ⟨by decide, by decide, ?_, ?_⟩
  · exact Function.bijective_id
  · exact Function.bijective_id

theorem goodCube_quarter (f : Face) (c : Cube) (h : GoodCube c) :
    GoodCube (quarter f c) := by
  obtain ⟨hco, heo, hcb, heb⟩ := h
  have hcσ : Function.Bijective (cSrc f) := by cases f <;> decide
  have heσ : Function.Bijective (eSrc f) := by cases f <;> decide
  refine ⟨?_, ?_, ?_, ?_⟩
  · show ∑ i, ((c.corners (cSrc f i)).2 + cTw f i) = 0
    rw [Finset.sum_add_distrib]
    have htw : ∑ i, cTw f i = 0 := by cases f <;> decide
    rw [htw, add_zero]
    have hre := Fintype.sum_bijective (cSrc f) hcσ
      (fun i => (c.corners (cSrc f i)).2) (fun i => (c.corners i).2)
      (fun i => rfl)
    exact hre.trans hco
  · show ∑ i, ((c.edges (eSrc f i)).2 + eTw f i) = 0
    rw [Finset.sum_add_distrib]
    have htw : ∑ i, eTw f i = 0 := by cases f <;> decide
    rw [htw, add_zero]
    have hre := Fintype.sum_bijective (eSrc f) heσ
      (fun i => (c.edges (eSrc f i)).2) (fun i => (c.edges i).2)
      (fun i => rfl)
    exact hre.trans heo
  · show Function.Bijective (fun i => (c.corners (cSrc f i)).1)
    exact hcb.comp hcσ
  · show Function.Bijective (fun i => (c.edges (eSrc f i)).1)
    exact heb.comp heσ

theorem goodCube_iterate (f : Face) (k : ℕ) (c : Cube) (h : GoodCube c) :
    GoodCube ((quarter f)^[k] c) := by
  induction k generalizing c with
  | zero => exact h
  | succ k ih =>
    rw [Function.iterate_succ_apply]
    exact ih (quarter f c) (goodCube_quarter f c h)

theorem goodCube_applySeq (c : Cube) (ms : List Move) (h : GoodCube c) :
    GoodCube (applySeq c ms) := by
  induction ms generalizing c with
  | nil => exact h
  | cons m ms ih => exact ih (applyMove c m) (goodCube_iterate m.1 m.turns c h)

theorem reachable_good (c : Cube) (h : Reachable c) : GoodCube c := by
  obtain ⟨ms, rfl⟩ := h
  exact goodCube_applySeq solvedCube ms goodCube_solved

/-- The corner-orientation vector of a cube state. -/
def coOf (c : Cube) : Fin 8 → ZMod 3 := fun i => (c.corners i).2

/-- The edge-orientation vector of a cube state. -/
def eoOf (c : Cube) : Fin 12 → ZMod 2 := fun i => (c.edges i).2

/-- The corner permutation: the cubie index at each position, as a list. -/
def cpList (c : Cube) : List ℕ :=
  (List.finRange 8).map fun i => ((c.corners i).1 : ℕ)

/-- The slice-placement data: the positions holding slice edges (cubie
index ≥ 8), highest position first. -/
def slicePos (c : Cube) : List ℕ :=
  (((List.finRange 12).filter fun i =>
    decide (8 ≤ ((c.edges i).1 : ℕ))).map Fin.val).reverse

theorem toFinset_map_list {α β : Type} [DecidableEq α] [DecidableEq β]
    (f : α → β) (l : List α) : (l.map f).toFinset = l.toFinset.image f := by
  induction l with
  | nil => rfl
  | cons a l ih => simp [ih]

theorem cpList_perm_range (c : Cube)
    (h : Function.Bijective fun i => (c.corners i).1) :
    (cpList c).Perm (List.range 8) := by
  apply List.perm_of_nodup_nodup_toFinset_eq
  · apply List.Nodup.map
    · intro a b hab
      exact h.1 (Fin.val_injective hab)
    · exact List.nodup_finRange 8
  · exact List.nodup_range 8
  · calc (cpList c).toFinset
        = (List.finRange 8).toFinset.image (fun i => ((c.corners i).1 : ℕ)) :=
          toFinset_map_list _ _
      _ = Finset.univ.image (fun i => ((c.corners i).1 : ℕ)) := by
          rw [List.toFinset_finRange]
      _ = (Finset.univ.image (fun i => (c.corners i).1)).image Fin.val :=
          (Finset.image_image ..).symm
      _ = Finset.univ.image Fin.val := by
          rw [Finset.image_univ_of_surjective h.2]
      _ = (List.range 8).toFinset := by decide

theorem slicePos_sorted (c : Cube) : (slicePos c).Pairwise (· > ·) := by
  unfold slicePos
  rw [List.pairwise_reverse]
  apply List.Pairwise.map (S := fun a b : ℕ => b > a) Fin.val
  · intro a b hab
    exact hab
  · exact List.Pairwise.filter _ (List.pairwise_lt_finRange 12)

theorem slicePos_bound (c : Cube) : ∀ x ∈ slicePos c, x < 12 := by
  intro x hx
  unfold slicePos at hx
  rw [List.mem_reverse] at hx
  obtain ⟨i, _, rfl⟩ := List.mem_map.mp hx
  exact i.isLt

theorem slicePos_length (c : Cube)
    (h : Function.Bijective fun i => (c.edges i).1) :
    (slicePos c).length = 4 := by
  unfold slicePos
  rw [List.length_reverse, List.length_map, length_filter_eq_card]
  have h1 : (Finset.univ.filter fun i : Fin 12 => 8 ≤ (((c.edges i).1 : ℕ))).card
      = Fintype.card {i : Fin 12 // 8 ≤ (((c.edges i).1 : ℕ))} :=
    (Fintype.card_subtype _).symm
  have h2 : Fintype.card {i : Fin 12 // 8 ≤ (((c.edges i).1 : ℕ))}
      = Fintype.card {j : Fin 12 // 8 ≤ ((j : ℕ))} :=
    Fintype.card_congr ((Equiv.ofBijective _ h).subtypeEquiv fun i => Iff.rfl)
  have h3 : Fintype.card {j : Fin 12 // 8 ≤ ((j : ℕ))} = 4 := by
    rw [Fintype.card_subtype]
    decide
  rw [h1, h2, h3]

/-- C4: the coordinate encoders and decoders are mutually inverse —
decode∘encode restores every reachable state's coordinate data (corner
orientation, edge orientation, corner permutation, slice placement), and
encode∘decode is the identity on each coordinate's range (2187 = 3⁷,
2048 = 2¹¹, n!, C(12,4) = 495). -/
theorem claim_C4_encoder_bijections (s : Cube) (hs : Reachable s) :
    (decCO (encCO (coOf s)) = coOf s ∧
     decEO (encEO (eoOf s)) = eoOf s ∧
     lehmerUnrank (lehmerRank (cpList s)) (List.range 8) = cpList s ∧
     combUnrankD 12 4 (combRankD 4 (slicePos s)) = slicePos s) ∧
    ((∀ c < 2187, encCO (decCO c) = c) ∧
     (∀ c < 2048, encEO (decEO c) = c) ∧
     (∀ (n c : ℕ), c < Nat.factorial n →
        lehmerRank (lehmerUnrank c (List.range n)) = c) ∧
     (∀ c < 495, combRankD 4 (combUnrankD 12 4 c) = c)) := by
  obtain ⟨hco, heo, hcb, heb⟩ := reachable_good s hs
  constructor
  · refine ⟨?_, ?_, ?_, ?_⟩
    · exact decCO_encCO _ hco
    · exact decEO_encEO _ heo
    · show lehmerUnrankAux (List.range 8).length (lehmerRank (cpList s))
        (List.range 8) = cpList s
      exact lehmerUnrank_lehmerRank (cpList s) (List.range 8)
        (cpList_perm_range s hcb) (List.pairwise_lt_range 8)
    · have hl := slicePos_length s heb
      rw [← hl]
      exact combUnrankD_combRankD 12 (slicePos s) (slicePos_sorted s)
        (slicePos_bound s)
  · refine ⟨?_, ?_, ?_, ?_⟩
    · exact fun c hc => encCO_decCO c hc
    · exact fun c hc => encEO_decEO c hc
    · intro n c hc
      show lehmerRank (lehmerUnrankAux (List.range n).length c (List.range n)) = c
      rw [List.length_range]
      exact (lehmerRank_lehmerUnrank n (List.range n) c (List.length_range n)
        (List.pairwise_lt_range n) hc).1
    · intro c hc
      have h495 : Nat.choose 12 4 = 495 := by decide
      exact (combRankD_combUnrankD 12 4 c (by rw [h495]; exact hc)).1

theorem claim_C4_encoder_bijections_witness :
    (decCO (encCO (coOf (quarter Face.F solvedCube))) =
        coOf (quarter Face.F solvedCube) ∧
     decEO (encEO (eoOf (quarter Face.F solvedCube))) =
        eoOf (quarter Face.F solvedCube) ∧
     lehmerUnrank (lehmerRank (cpList (quarter Face.F solvedCube)))
        (List.range 8) = cpList (quarter Face.F solvedCube) ∧
     combUnrankD 12 4 (combRankD 4 (slicePos (quarter Face.F solvedCube))) =
        slicePos (quarter Face.F solvedCube)) ∧
    ((∀ c < 2187, encCO (decCO c) = c) ∧
     (∀ c < 2048, encEO (decEO c) = c) ∧
     (∀ (n c : ℕ), c < Nat.factorial n →
        lehmerRank (lehmerUnrank c (List.range n)) = c) ∧
     (∀ c < 495, combRankD 4 (combUnrankD 12 4 c) = c)) :=
  claim_C4_encoder_bijections (quarter Face.F solvedCube)
    ⟨[(Face.F, ⟨0, by omega⟩)], rfl⟩
